import Mathlib

/-!
# Violation heap: formal model and verification

Shallow embedding of the violation heap priority queue declared in
`src/queues/violation_heap.h`.  The header ships only declarations and
documentation; the function bodies are not part of the source tree, so the
operations below are modelled from the specification (spec.md §4), faithful to
its wording.  Node identity (the C node pointer) is modelled by a numeric id
assigned at insertion; the `prev` back-pointer of the sibling list is an
implementation economization (spec §9) and is not needed in a functional model.
-/

namespace VH

open List

/--
Modelled from `violation_node_t` in `src/queues/violation_heap.h`: a pointer to
a node, `null` being the C NULL.  A node carries its last child (`child`), the
next sibling (`next`), its `rank`, `item`, `key`, and an `id` standing for the
address of the node (the stable handle given to clients).  The `prev` pointer
only mirrors `next` and is omitted.
-/
inductive VF : Type where
  | null : VF
  | mk (child : VF) (next : VF) (rank : Nat) (item : Int) (key : Int) (id : Nat) : VF
deriving DecidableEq

/-- Entries stored in a forest: (id, key, item) triples, preorder. -/
def entriesF : VF → List (Nat × Int × Int)
  | .null => []
  | .mk c s _ it k i => (i, k, it) :: (entriesF c ++ entriesF s)

/-- Ids present in a forest. -/
def idsF (f : VF) : List Nat := (entriesF f).map (·.1)

/-- Number of top-level nodes of a sibling chain. -/
def lenF : VF → Nat
  | .null => 0
  | .mk _ s _ _ _ _ => lenF s + 1

/-- Number of top-level roots with the given rank. -/
def countRank (r : Nat) : VF → Nat
  | .null => 0
  | .mk _ s rk _ _ _ => (if rk = r then 1 else 0) + countRank r s

/-- Largest rank among top-level roots. -/
def maxRankF : VF → Nat
  | .null => 0
  | .mk _ s rk _ _ _ => max rk (maxRankF s)

/-- All keys in the forest are `≥ k`. -/
def allGE (k : Int) : VF → Bool
  | .null => true
  | .mk c s _ _ k' _ => decide (k ≤ k') && allGE k c && allGE k s

/-- Heap order: every node's key bounds all keys of its child subtrees. -/
def hOrdF : VF → Bool
  | .null => true
  | .mk c s _ _ k _ => allGE k c && hOrdF c && hOrdF s

/-- Rank of a node (0 for null). -/
def rankN : VF → Nat
  | .null => 0
  | .mk _ _ rk _ _ _ => rk

/-- Key of a node (0 for null). -/
def keyN : VF → Int
  | .null => 0
  | .mk _ _ _ _ k _ => k

/-- Id of a node (0 for null). -/
def idN : VF → Nat
  | .null => 0
  | .mk _ _ _ _ _ i => i

/-- Child chain of a node. -/
def childN : VF → VF
  | .null => .null
  | .mk c _ _ _ _ _ => c

/-- Item of a node (0 for null). -/
def itemN : VF → Int
  | .null => 0
  | .mk _ _ _ it _ _ => it

/-- Prepend a single node (its subtree kept) onto a sibling chain. -/
def pushRoot : VF → VF → VF
  | .null, f => f
  | .mk c _ rk it k i, f => .mk c f rk it k i

/-- Concatenate two sibling chains. -/
def appendF : VF → VF → VF
  | .null, g => g
  | .mk c s rk it k i, g => .mk c (appendF s g) rk it k i

/--
Modelled from the spec (§4.3/§4.4): linking two roots.  "The smaller-key node
becomes parent", "increasing the parent's rank by one and attaching the loser
as a new child"; the winner's `child` pointer is the most recently attached
child, so the loser is prepended to the winner's child chain.
-/
def linkRoots : VF → VF → VF
  | .null, b => b
  | a, .null => a
  | .mk c₁ _ rk₁ it₁ k₁ i₁, .mk c₂ _ rk₂ it₂ k₂ i₂ =>
    if k₁ ≤ k₂ then
      .mk (.mk c₂ c₁ rk₂ it₂ k₂ i₂) .null (rk₁ + 1) it₁ k₁ i₁
    else
      .mk (.mk c₁ c₂ rk₁ it₁ k₁ i₁) .null (rk₂ + 1) it₂ k₂ i₂

/-- Extract the first top-level root of rank `r`; the extracted node keeps its
subtree and gets a null sibling. -/
def extract1 (r : Nat) : VF → Option (VF × VF)
  | .null => none
  | .mk c s rk it k i =>
    if rk = r then some (.mk c .null rk it k i, s)
    else (extract1 r s).map fun p => (p.1, .mk c p.2 rk it k i)

/-- Auxiliary scan: first top-level node whose rank is shared by at least three
top-level roots of `f0`. -/
def overfullAux (f0 : VF) : VF → Option Nat
  | .null => none
  | .mk _ s rk _ _ _ => if 3 ≤ countRank rk f0 then some rk else overfullAux f0 s

/-- A rank held by three or more roots, if any (first found in root order; the
spec leaves the tie-break open, §9). -/
def overfull (f : VF) : Option Nat := overfullAux f f

/--
Modelled from the spec (§4.4): consolidation.  "Whenever three or more roots
share a rank, repeatedly link pairs (smaller key becomes parent, increasing the
parent's rank by one and attaching the loser as a new child) until at most two
remain at that rank, cascading promotions to higher ranks as needed."  Each
link removes one root, so the number of roots bounds the iterations; the fuel
makes the recursion structural.
-/
def consFuel : Nat → VF → VF
  | 0, f => f
  | fuel + 1, f =>
    match overfull f with
    | none => f
    | some r =>
      match extract1 r f with
      | none => f
      | some (a, f1) =>
        match extract1 r f1 with
        | none => f
        | some (b, f2) => consFuel fuel (pushRoot (linkRoots a b) f2)

/-- Consolidate a root chain until at most two roots share any rank. -/
def consolidate (f : VF) : VF := consFuel (lenF f) f

/-- Scan the top-level roots for the (id, key) of a root of minimal key;
modelled from the spec (§4.4): "scan all remaining roots to find the new
minimum by key comparison". -/
def scanMin : VF → Option (Nat × Int)
  | .null => none
  | .mk _ s _ _ k i =>
    match scanMin s with
    | none => some (i, k)
    | some p => if k ≤ p.2 then some (i, k) else some p

/-- Does the top-level chain contain a node with id `x`? -/
def hasTop (x : Nat) : VF → Bool
  | .null => false
  | .mk _ s _ _ _ i => i = x || hasTop x s

/-- Remove the node with id `x` from the top level of a chain; also reports
whether it was the first (most recently attached, i.e. active) element. -/
def removeTop (x : Nat) : VF → Option (VF × VF × Bool)
  | .null => none
  | .mk c s rk it k i =>
    if i = x then some (.mk c .null rk it k i, s, true)
    else (removeTop x s).map fun p => (p.1, .mk c p.2.1 rk it k i, false)

/--
Modelled from the spec (§4.5/§4.6): detach the subtree rooted at the node with
id `x`, returning it together with the remaining forest.  When the node is a
direct child of some parent it is unlinked from that parent's child list; in
decrease-key mode (`dec = true`) the parent's rank is decremented when the cut
child was passive (not the most recently attached), per §4.6; delete (§4.5)
adjusts no rank.
-/
def removeF (dec : Bool) (x : Nat) : VF → Option (VF × VF)
  | .null => none
  | .mk c s rk it k i =>
    if i = x then some (.mk c .null rk it k i, s)
    else
      match removeTop x c with
      | some p =>
        let rk' := if dec && !p.2.2 then rk - 1 else rk
        some (p.1, .mk p.2.1 s rk' it k i)
      | none =>
        match removeF dec x c with
        | some p => some (p.1, .mk p.2 s rk it k i)
        | none =>
          match removeF dec x s with
          | some p => some (p.1, .mk c p.2 rk it k i)
          | none => none

/-- Overwrite the key of the node with id `x`, wherever it is in the forest. -/
def setKeyF (x : Nat) (nk : Int) : VF → VF
  | .null => .null
  | .mk c s rk it k i =>
    .mk (setKeyF x nk c) (setKeyF x nk s) rk it (if i = x then nk else k) i

/-- Overwrite the key of the top-level (root) node with id `x` only. -/
def setKeyTop (x : Nat) (nk : Int) : VF → VF
  | .null => .null
  | .mk c s rk it k i =>
    .mk c (setKeyTop x nk s) rk it (if i = x then nk else k) i

/-- Key of the parent of the node with id `x` (none when `x` is a root or
absent). -/
def parentKeyF (x : Nat) : VF → Option Int
  | .null => none
  | .mk c s _ _ k _ =>
    if hasTop x c then some k
    else
      match parentKeyF x c with
      | some pk => some pk
      | none => parentKeyF x s

/-- Every node's `rank` equals its number of children (claim C10's invariant). -/
def ranksOk : VF → Bool
  | .null => true
  | .mk c s rk _ _ _ => (rk == lenF c) && ranksOk c && ranksOk s

/-- Erase keys, items and nothing else: the skeleton (links, ranks, ids) of a
forest, used to state frame conditions. -/
def skel : VF → VF
  | .null => .null
  | .mk c s rk _ _ i => .mk (skel c) (skel s) rk 0 0 i

/--
Modelled from `violation_heap_t` in `src/queues/violation_heap.h` and spec §3:
`size` counts the nodes, `minimum` points to the minimum node (here: its id),
the forest of roots (the C `roots[MAXRANK][2]` rank-indexed table is
represented by the chain of root trees; the two-per-rank bound is the invariant
it enforces), and `largest_rank` is the highest rank in use.  `next_id` models
the allocator handing out fresh node addresses (the allocator is an external
collaborator per spec §1).
-/
structure violation_heap where
  size : Nat
  minimum : Option Nat
  roots : VF
  largest_rank : Nat
  next_id : Nat
deriving DecidableEq

/-- Entries of a heap. -/
def entriesH (h : violation_heap) : List (Nat × Int × Int) := entriesF h.roots

/-- Errors surfaced at the API boundary, modelled from spec §7. -/
inductive PQError : Type where
  | emptyHeap : PQError
  | invalidHandle : PQError
  | orderViolation : PQError
deriving DecidableEq

deriving instance DecidableEq for Except

/-- Modelled from the spec (§4.1): `create(capacity)` returns an empty heap;
the capacity is a hint and does not constrain the model. -/
def pq_create (_capacity : Nat) : violation_heap :=
  { size := 0, minimum := none, roots := .null, largest_rank := 0, next_id := 0 }

/-- Look up the entry with id `x`. -/
def findEntry (h : violation_heap) (x : Nat) : Option (Nat × Int × Int) :=
  (entriesH h).find? fun e => e.1 = x

/-- Modelled from the spec (§4.6 and §4.3): update the stored minimum pointer
after the node with id `x` acquired key `nk`, by direct key comparison against
the current minimum's key. -/
def updMin (h : violation_heap) (x : Nat) (nk : Int) : Option Nat :=
  match h.minimum with
  | none => some x
  | some m =>
    match findEntry h m with
    | none => some x
    | some em => if nk < em.2.1 then some x else some m

/--
Modelled from the spec (§4.3): `pq_insert` allocates a singleton node of rank 0
and adds it as a new root; if that makes three rank-0 roots, pairs are linked
(cascading to higher ranks) so that at most two roots per rank remain — this is
the consolidation step restricted to the ranks that overflow.  The minimum is
updated by direct key comparison.  Returns the new heap and the node's handle.
-/
def pq_insert (h : violation_heap) (item : Int) (key : Int) : violation_heap × Nat :=
  let n : VF := .mk .null .null 0 item key h.next_id
  let roots' := consolidate (pushRoot n h.roots)
  ({ size := h.size + 1,
     minimum := updMin h h.next_id key,
     roots := roots',
     largest_rank := maxRankF roots',
     next_id := h.next_id + 1 }, h.next_id)

/-- Modelled from the spec (§4.2): `findMin` returns the node `minimum` points
at, and fails with an empty-heap condition when `size == 0`. -/
def pq_find_min (h : violation_heap) : Except PQError (Nat × Int × Int) :=
  if h.size = 0 then .error .emptyHeap
  else
    match h.minimum with
    | none => .error .emptyHeap
    | some m =>
      match findEntry h m with
      | some e => .ok e
      | none => .error .invalidHandle

/--
Modelled from the spec (§4.5): `pq_delete` detaches the node from its parent's
child list (or from the root set), splices the node's children into the root
set, consolidates, re-scans the roots to re-establish the minimum, and
decrements `size`.  Returns the removed key.  An id not in the heap is an
invalid handle (§7) and leaves the heap unchanged.
-/
def pq_delete (h : violation_heap) (x : Nat) : Except PQError Int × violation_heap :=
  match removeF false x h.roots with
  | none => (.error .invalidHandle, h)
  | some (n, rest) =>
    let roots' := consolidate (appendF (childN n) rest)
    (.ok (keyN n),
     { size := h.size - 1,
       minimum := (scanMin roots').map (·.1),
       roots := roots',
       largest_rank := maxRankF roots',
       next_id := h.next_id })

/-- Modelled from the spec (§4.4) and the header comment of `pq_delete_min`
("relies on pq_delete to remove the minimum item"): fails on an empty heap,
otherwise deletes the node the minimum pointer designates. -/
def pq_delete_min (h : violation_heap) : Except PQError Int × violation_heap :=
  if h.size = 0 then (.error .emptyHeap, h)
  else
    match h.minimum with
    | none => (.error .emptyHeap, h)
    | some m => pq_delete h m

/--
Modelled from the spec (§4.6): `pq_decrease_key`.  A `newKey` above the current
key is an order violation reported without mutating the heap (§7).  On a root
the key is overwritten in place and only the minimum pointer may additionally
change.  On a non-root whose new key does not undercut its parent's key the key
is overwritten in place.  Otherwise the node is cut: an active (most recently
attached) child leaves its parent's rank unchanged, a passive child decrements
it; the cut subtree is promoted to a root, the root set is rebalanced so at
most two roots share a rank (§3 invariant 2), and the minimum pointer is
updated if the new key is smaller.
-/
def pq_decrease_key (h : violation_heap) (x : Nat) (nk : Int) :
    Except PQError Unit × violation_heap :=
  match findEntry h x with
  | none => (.error .invalidHandle, h)
  | some e =>
    if e.2.1 < nk then (.error .orderViolation, h)
    else if hasTop x h.roots then
      (.ok (), { h with roots := setKeyTop x nk h.roots, minimum := updMin h x nk })
    else
      match parentKeyF x h.roots with
      | none => (.error .invalidHandle, h)
      | some pk =>
        if nk < pk then
          match removeF true x h.roots with
          | none => (.error .invalidHandle, h)
          | some (n, rest) =>
            let roots' := consolidate (pushRoot (setKeyTop x nk n) rest)
            (.ok (),
             { h with roots := roots',
                      minimum := updMin h x nk,
                      largest_rank := maxRankF roots' })
        else
          (.ok (), { h with roots := setKeyF x nk h.roots })

/-- Modelled from the spec (§4.1): `clear` repeatedly removes the minimum until
the heap is empty. -/
def clearAux : Nat → violation_heap → violation_heap
  | 0, h => h
  | n + 1, h => clearAux n (pq_delete_min h).2

/-- Modelled from the spec (§4.1): `pq_clear`. -/
def pq_clear (h : violation_heap) : violation_heap := clearAux h.size h

/-- Modelled from the spec (§4.2): key accessor. -/
def pq_get_key (h : violation_heap) (x : Nat) : Option Int :=
  (findEntry h x).map (·.2.1)

/-- Modelled from the spec (§4.2): item accessor. -/
def pq_get_item (h : violation_heap) (x : Nat) : Option Int :=
  (findEntry h x).map (·.2.2)

/-- Modelled from the spec (§4.2): size accessor. -/
def pq_get_size (h : violation_heap) : Nat := h.size

/-- Modelled from the spec (§4.2): emptiness test. -/
def pq_empty (h : violation_heap) : Bool := h.size == 0

/-- Client-visible mutating operations (spec §6). -/
inductive Op : Type where
  | insert (key item : Int) : Op
  | deleteMin : Op
  | delete (x : Nat) : Op
  | decreaseKey (x : Nat) (nk : Int) : Op
  | clear : Op

/-- One step of the client API. -/
def step (h : violation_heap) : Op → violation_heap
  | .insert k it => (pq_insert h it k).1
  | .deleteMin => (pq_delete_min h).2
  | .delete x => (pq_delete h x).2
  | .decreaseKey x nk => (pq_decrease_key h x nk).2
  | .clear => pq_clear h

/-- Run a sequence of operations on a fresh heap. -/
def runOps (ops : List Op) : violation_heap := ops.foldl step (pq_create 0)

/-- Insert a list of (key, item) pairs into a fresh heap. -/
def populate (l : List (Int × Int)) : violation_heap :=
  l.foldl (fun h p => (pq_insert h p.2 p.1).1) (pq_create l.length)

/-- Repeated delete-min, collecting the returned keys. -/
def drain : Nat → violation_heap → List Int × violation_heap
  | 0, h => ([], h)
  | n + 1, h =>
    match pq_delete_min h with
    | (.ok k, h') =>
      let p := drain n h'
      (k :: p.1, p.2)
    | (.error _, h') => ([], h')

/-- Repeated find-min plus delete-min, collecting the reported nodes. -/
def drainE : Nat → violation_heap → List (Nat × Int × Int)
  | 0, _ => []
  | n + 1, h =>
    match pq_find_min h with
    | .ok e => e :: drainE n (pq_delete_min h).2
    | .error _ => []

/-- Rank-bound check: no rank is shared by three or more roots. -/
def rankBoundOk (f0 : VF) : VF → Bool
  | .null => true
  | .mk _ s rk _ _ _ => decide (countRank rk f0 ≤ 2) && rankBoundOk f0 s

/-- Minimum-pointer check: the minimum id designates an entry whose key bounds
every key in the heap, and it is present exactly when the heap is non-empty. -/
def minOk (h : violation_heap) : Bool :=
  match h.minimum with
  | none => h.size == 0
  | some m =>
    decide (h.size ≠ 0) &&
      match findEntry h m with
      | none => false
      | some em => (entriesH h).all fun e => decide (em.2.1 ≤ e.2.1)

/-- The between-operations representation invariant of the model (spec §3):
size matches the number of stored entries, the forest is heap-ordered, node
ids are distinct and below the allocation counter, at most two roots share any
rank, the minimum pointer is correct, and `largest_rank` is the largest root
rank. -/
def valid (h : violation_heap) : Bool :=
  (h.size == (entriesH h).length) &&
  hOrdF h.roots &&
  decide (idsF h.roots).Nodup &&
  ((entriesH h).all fun e => decide (e.1 < h.next_id)) &&
  rankBoundOk h.roots h.roots &&
  minOk h &&
  (h.largest_rank == maxRankF h.roots)

/-- Key substitution on an entry: entry of the node `x` gets key `nk`. -/
def substKey (x : Nat) (nk : Int) (e : Nat × Int × Int) : Nat × Int × Int :=
  if e.1 = x then (e.1, nk, e.2.2) else e

/-- The between-operations representation invariant, in propositional form
(equivalent to the executable `valid`, see `valid_iff`). -/
structure Valid (h : violation_heap) : Prop where
  sizeEq : h.size = (entriesH h).length
  hord : hOrdF h.roots = true
  nodup : (idsF h.roots).Nodup
  idsLt : ∀ e ∈ entriesH h, e.1 < h.next_id
  rankBound : ∀ r, countRank r h.roots ≤ 2
  minNone : h.minimum = none → h.size = 0
  minSome : ∀ m, h.minimum = some m → h.size ≠ 0 ∧
    ∃ e, findEntry h m = some e ∧ ∀ e' ∈ entriesH h, e.2.1 ≤ e'.2.1
  largest : h.largest_rank = maxRankF h.roots

/-! ## Basic lemmas about forests -/

theorem entriesF_appendF (f g : VF) :
    entriesF (appendF f g) = entriesF f ++ entriesF g := by
  induction f with
  | null => simp [appendF, entriesF]
  | mk c s rk it k i ihc ihs => simp [appendF, entriesF, ihs]

theorem entriesF_eq_nil (f : VF) : entriesF f = [] ↔ f = .null := by
  cases f <;> simp [entriesF]

theorem allGE_iff (k : Int) (f : VF) :
    allGE k f = true ↔ ∀ e ∈ entriesF f, k ≤ e.2.1 := by
  induction f with
  | null => simp [allGE, entriesF]
  | mk c s rk it k' i ihc ihs =>
    simp only [allGE, entriesF, Bool.and_eq_true, decide_eq_true_eq, ihc, ihs,
      List.mem_cons, List.mem_append]
    constructor
    · rintro ⟨⟨h1, h2⟩, h3⟩ e he
      rcases he with rfl | he | he
      · exact h1
      · exact h2 e he
      · exact h3 e he
    · intro h
      exact ⟨⟨h _ (Or.inl rfl), fun e he => h e (Or.inr (Or.inl he))⟩,
        fun e he => h e (Or.inr (Or.inr he))⟩

theorem allGE_mono {j k : Int} (h : j ≤ k) {f : VF} (hf : allGE k f = true) :
    allGE j f = true := by
  rw [allGE_iff] at hf ⊢
  exact fun e he => le_trans h (hf e he)

theorem hOrdF_mk {c s : VF} {rk : Nat} {it k : Int} {i : Nat} :
    hOrdF (.mk c s rk it k i) = true ↔
      allGE k c = true ∧ hOrdF c = true ∧ hOrdF s = true := by
  simp [hOrdF, Bool.and_eq_true, and_assoc]

theorem hOrdF_le {f : VF} (hf : hOrdF f = true) {c s : VF} {rk : Nat} {it k : Int}
    {i : Nat} (hsub : f = .mk c s rk it k i) : ∀ e ∈ entriesF c, k ≤ e.2.1 := by
  subst hsub
  rw [hOrdF_mk] at hf
  exact (allGE_iff k c).1 hf.1

theorem lenF_pushRoot (t f : VF) (ht : t ≠ .null) :
    lenF (pushRoot t f) = lenF f + 1 := by
  cases t with
  | null => exact absurd rfl ht
  | mk c s rk it k i => simp [pushRoot, lenF]

theorem entriesF_pushRoot (c : VF) (rk : Nat) (it k : Int) (i : Nat) (f : VF) :
    entriesF (pushRoot (.mk c .null rk it k i) f) =
      (i, k, it) :: (entriesF c ++ entriesF f) := by
  simp [pushRoot, entriesF]

/-- Uniqueness of `find?` results on an id-deduplicated entry list. -/
theorem find_unique {l : List (Nat × Int × Int)} (hn : (l.map (·.1)).Nodup)
    {e : Nat × Int × Int} (he : e ∈ l) :
    l.find? (fun e' => e'.1 = e.1) = some e := by
  induction l with
  | nil => cases he
  | cons a l ih =>
    simp only [List.map_cons, List.nodup_cons, List.mem_map] at hn
    rcases List.mem_cons.1 he with rfl | he'
    · simp [List.find?_cons]
    · rw [List.find?_cons]
      have hne : (decide (a.1 = e.1)) = false := by
        simp only [decide_eq_false_iff_not]
        intro heq
        exact hn.1 ⟨e, he', heq.symm⟩
      rw [hne]
      exact ih hn.2 he'

theorem find_mem {l : List (Nat × Int × Int)} {x : Nat} {e : Nat × Int × Int}
    (h : l.find? (fun e' => e'.1 = x) = some e) : e ∈ l ∧ e.1 = x := by
  have h1 := List.find?_some h
  have h2 := List.mem_of_find?_eq_some h
  simp only [decide_eq_true_eq] at h1
  exact ⟨h2, h1⟩

/-! ## Extraction and linking -/

theorem extract1_shape {r : Nat} {f a rest : VF} (h : extract1 r f = some (a, rest)) :
    ∃ c it k i, a = .mk c .null r it k i := by
  induction f generalizing a rest with
  | null => simp [extract1] at h
  | mk c s rk it k i ihc ihs =>
    by_cases hr : rk = r
    · simp only [extract1, if_pos hr, Option.some.injEq, Prod.mk.injEq] at h
      obtain ⟨rfl, rfl⟩ := h
      exact ⟨c, it, k, i, by rw [hr]⟩
    · simp only [extract1, if_neg hr] at h
      cases ho : extract1 r s with
      | none => rw [ho] at h; simp at h
      | some p =>
        obtain ⟨a1, r1⟩ := p
        rw [ho] at h
        simp only [Option.map_some', Option.some.injEq, Prod.mk.injEq] at h
        obtain ⟨rfl, rfl⟩ := h
        exact ihs ho

theorem extract1_entries {r : Nat} {f a rest : VF} (h : extract1 r f = some (a, rest)) :
    entriesF f ~ entriesF a ++ entriesF rest := by
  induction f generalizing a rest with
  | null => simp [extract1] at h
  | mk c s rk it k i ihc ihs =>
    by_cases hr : rk = r
    · simp only [extract1, if_pos hr, Option.some.injEq, Prod.mk.injEq] at h
      obtain ⟨rfl, rfl⟩ := h
      simp [entriesF]
    · simp only [extract1, if_neg hr] at h
      cases ho : extract1 r s with
      | none => rw [ho] at h; simp at h
      | some p =>
        obtain ⟨a1, r1⟩ := p
        rw [ho] at h
        simp only [Option.map_some', Option.some.injEq, Prod.mk.injEq] at h
        obtain ⟨rfl, rfl⟩ := h
        have hp := ihs ho
        simp only [entriesF]
        rw [List.perm_iff_count]
        intro b
        have hc := (List.perm_iff_count.1 hp) b
        simp only [List.count_append, List.count_cons] at hc ⊢
        omega

theorem extract1_len {r : Nat} {f a rest : VF} (h : extract1 r f = some (a, rest)) :
    lenF f = lenF rest + 1 := by
  induction f generalizing a rest with
  | null => simp [extract1] at h
  | mk c s rk it k i ihc ihs =>
    by_cases hr : rk = r
    · simp only [extract1, if_pos hr, Option.some.injEq, Prod.mk.injEq] at h
      obtain ⟨rfl, rfl⟩ := h
      simp [lenF]
    · simp only [extract1, if_neg hr] at h
      cases ho : extract1 r s with
      | none => rw [ho] at h; simp at h
      | some p =>
        obtain ⟨a1, r1⟩ := p
        rw [ho] at h
        simp only [Option.map_some', Option.some.injEq, Prod.mk.injEq] at h
        obtain ⟨rfl, rfl⟩ := h
        have := ihs ho
        simp [lenF, this]

theorem extract1_count {r : Nat} {f a rest : VF} (h : extract1 r f = some (a, rest)) :
    ∀ r', countRank r' f = countRank r' rest + (if r = r' then 1 else 0) := by
  induction f generalizing a rest with
  | null => simp [extract1] at h
  | mk c s rk it k i ihc ihs =>
    by_cases hr : rk = r
    · simp only [extract1, if_pos hr, Option.some.injEq, Prod.mk.injEq] at h
      obtain ⟨rfl, rfl⟩ := h
      intro r'
      subst hr
      simp only [countRank]
      by_cases h' : rk = r'
      · simp [h', Nat.add_comm]
      · simp [h']
    · simp only [extract1, if_neg hr] at h
      cases ho : extract1 r s with
      | none => rw [ho] at h; simp at h
      | some p =>
        obtain ⟨a1, r1⟩ := p
        rw [ho] at h
        simp only [Option.map_some', Option.some.injEq, Prod.mk.injEq] at h
        obtain ⟨rfl, rfl⟩ := h
        intro r'
        have := ihs ho r'
        simp only [countRank, this]
        omega

theorem extract1_isSome {r : Nat} {f : VF} (h : 1 ≤ countRank r f) :
    (extract1 r f).isSome := by
  induction f with
  | null => simp [countRank] at h
  | mk c s rk it k i ihc ihs =>
    by_cases hr : rk = r
    · simp [extract1, if_pos hr]
    · simp only [countRank, if_neg hr, Nat.zero_add] at h
      have := ihs h
      simp only [extract1, if_neg hr]
      cases ho : extract1 r s with
      | none => rw [ho] at this; simp at this
      | some p => simp

theorem extract1_hOrd {r : Nat} {f a rest : VF} (h : extract1 r f = some (a, rest))
    (hf : hOrdF f = true) : hOrdF a = true ∧ hOrdF rest = true := by
  induction f generalizing a rest with
  | null => simp [extract1] at h
  | mk c s rk it k i ihc ihs =>
    rw [hOrdF_mk] at hf
    by_cases hr : rk = r
    · simp only [extract1, if_pos hr, Option.some.injEq, Prod.mk.injEq] at h
      obtain ⟨rfl, rfl⟩ := h
      exact ⟨hOrdF_mk.2 ⟨hf.1, hf.2.1, rfl⟩, hf.2.2⟩
    · simp only [extract1, if_neg hr] at h
      cases ho : extract1 r s with
      | none => rw [ho] at h; simp at h
      | some p =>
        obtain ⟨a1, r1⟩ := p
        rw [ho] at h
        simp only [Option.map_some', Option.some.injEq, Prod.mk.injEq] at h
        obtain ⟨rfl, rfl⟩ := h
        have := ihs ho hf.2.2
        exact ⟨this.1, hOrdF_mk.2 ⟨hf.1, hf.2.1, this.2⟩⟩

theorem overfull_none {f : VF} (h : overfull f = none) (r : Nat) :
    countRank r f ≤ 2 := by
  by_contra hc
  push_neg at hc
  have hmem : ∀ g : VF, countRank r g ≠ 0 → overfullAux f g ≠ none := by
    intro g
    induction g with
    | null => simp [countRank]
    | mk c s rk it k i ihc ihs =>
      intro hg
      rw [overfullAux]
      split
      · simp
      · rename_i hlt
        simp only [countRank] at hg
        by_cases hrk : rk = r
        · subst hrk
          exact absurd (by omega : 3 ≤ countRank rk f) hlt
        · exact ihs (by simpa [hrk] using hg)
  exact hmem f (by omega) h

theorem overfull_some {f : VF} {r : Nat} (h : overfull f = some r) :
    3 ≤ countRank r f := by
  have haux : ∀ g : VF, overfullAux f g = some r → 3 ≤ countRank r f := by
    intro g
    induction g with
    | null => simp [overfullAux]
    | mk c s rk it k i ihc ihs =>
      intro hg
      rw [overfullAux] at hg
      split at hg
      · rename_i hlt
        obtain rfl : rk = r := by simpa using hg
        exact hlt
      · exact ihs hg
  exact haux f h

/-! ## Linking and consolidation -/

theorem pll_entries (ca cb : VF) (r : Nat) (ita ka itb kb : Int) (ia ib : Nat)
    (f2 : VF) :
    entriesF (pushRoot (linkRoots (.mk ca .null r ita ka ia) (.mk cb .null r itb kb ib)) f2) ~
      entriesF (.mk ca .null r ita ka ia) ++ (entriesF (.mk cb .null r itb kb ib) ++ entriesF f2) := by
  by_cases hk : ka ≤ kb
  · simp only [linkRoots, if_pos hk, pushRoot, entriesF]
    rw [List.perm_iff_count]
    intro b
    simp only [List.count_append, List.count_cons, List.append_nil]
    omega
  · simp only [linkRoots, if_neg hk, pushRoot, entriesF]
    rw [List.perm_iff_count]
    intro b
    simp only [List.count_append, List.count_cons, List.append_nil]
    omega

theorem pll_lenF (ca cb : VF) (r : Nat) (ita ka itb kb : Int) (ia ib : Nat) (f2 : VF) :
    lenF (pushRoot (linkRoots (.mk ca .null r ita ka ia) (.mk cb .null r itb kb ib)) f2) =
      lenF f2 + 1 := by
  by_cases hk : ka ≤ kb
  · simp [linkRoots, if_pos hk, pushRoot, lenF]
  · simp [linkRoots, if_neg hk, pushRoot, lenF]

theorem pll_count (ca cb : VF) (r : Nat) (ita ka itb kb : Int) (ia ib : Nat) (f2 : VF)
    (r' : Nat) :
    countRank r' (pushRoot (linkRoots (.mk ca .null r ita ka ia) (.mk cb .null r itb kb ib)) f2) =
      countRank r' f2 + (if r + 1 = r' then 1 else 0) := by
  by_cases hk : ka ≤ kb
  · simp only [linkRoots, if_pos hk, pushRoot, countRank]
    omega
  · simp only [linkRoots, if_neg hk, pushRoot, countRank]
    omega

theorem pll_hOrd {ca cb : VF} {r : Nat} {ita ka itb kb : Int} {ia ib : Nat} {f2 : VF}
    (hA : hOrdF (.mk ca .null r ita ka ia) = true)
    (hb : hOrdF (.mk cb .null r itb kb ib) = true) (hf : hOrdF f2 = true) :
    hOrdF (pushRoot (linkRoots (.mk ca .null r ita ka ia) (.mk cb .null r itb kb ib)) f2) = true := by
  rw [hOrdF_mk] at hA hb
  by_cases hk : ka ≤ kb
  · simp only [linkRoots, if_pos hk, pushRoot]
    rw [hOrdF_mk]
    refine ⟨?_, ?_, hf⟩
    · simp only [allGE, Bool.and_eq_true, decide_eq_true_eq]
      exact ⟨⟨hk, allGE_mono hk hb.1⟩, hA.1⟩
    · rw [hOrdF_mk]
      exact ⟨hb.1, hb.2.1, hA.2.1⟩
  · push_neg at hk
    simp only [linkRoots, if_neg (not_le.2 hk), pushRoot]
    rw [hOrdF_mk]
    refine ⟨?_, ?_, hf⟩
    · simp only [allGE, Bool.and_eq_true, decide_eq_true_eq]
      exact ⟨⟨le_of_lt hk, allGE_mono (le_of_lt hk) hA.1⟩, hb.1⟩
    · rw [hOrdF_mk]
      exact ⟨hA.1, hA.2.1, hb.2.1⟩

theorem ranksOk_mk {c s : VF} {rk : Nat} {it k : Int} {i : Nat} :
    ranksOk (.mk c s rk it k i) = true ↔
      rk = lenF c ∧ ranksOk c = true ∧ ranksOk s = true := by
  simp [ranksOk, Bool.and_eq_true, and_assoc, Nat.beq_eq_true_eq]

theorem pll_ranksOk {ca cb : VF} {r : Nat} {ita ka itb kb : Int} {ia ib : Nat} {f2 : VF}
    (hA : ranksOk (.mk ca .null r ita ka ia) = true)
    (hb : ranksOk (.mk cb .null r itb kb ib) = true) (hf : ranksOk f2 = true) :
    ranksOk (pushRoot (linkRoots (.mk ca .null r ita ka ia) (.mk cb .null r itb kb ib)) f2) = true := by
  rw [ranksOk_mk] at hA hb
  by_cases hk : ka ≤ kb
  · simp only [linkRoots, if_pos hk, pushRoot]
    rw [ranksOk_mk]
    refine ⟨by simp [lenF, hA.1], ?_, hf⟩
    rw [ranksOk_mk]
    exact ⟨hb.1, hb.2.1, hA.2.1⟩
  · simp only [linkRoots, if_neg hk, pushRoot]
    rw [ranksOk_mk]
    refine ⟨by simp [lenF, hb.1], ?_, hf⟩
    rw [ranksOk_mk]
    exact ⟨hA.1, hA.2.1, hb.2.1⟩

theorem consFuel_succ_none {fuel : Nat} {f : VF} (ho : overfull f = none) :
    consFuel (fuel + 1) f = f := by
  simp [consFuel, ho]

theorem consFuel_succ_stuck1 {fuel : Nat} {f : VF} {r : Nat} (ho : overfull f = some r)
    (h1 : extract1 r f = none) : consFuel (fuel + 1) f = f := by
  simp [consFuel, ho, h1]

theorem consFuel_succ_stuck2 {fuel : Nat} {f : VF} {r : Nat} {a f1 : VF}
    (ho : overfull f = some r) (h1 : extract1 r f = some (a, f1))
    (h2 : extract1 r f1 = none) : consFuel (fuel + 1) f = f := by
  simp [consFuel, ho, h1, h2]

theorem consFuel_succ_step {fuel : Nat} {f : VF} {r : Nat} {a f1 b f2 : VF}
    (ho : overfull f = some r) (h1 : extract1 r f = some (a, f1))
    (h2 : extract1 r f1 = some (b, f2)) :
    consFuel (fuel + 1) f = consFuel fuel (pushRoot (linkRoots a b) f2) := by
  simp [consFuel, ho, h1, h2]

theorem consFuel_entries (fuel : Nat) (f : VF) : entriesF (consFuel fuel f) ~ entriesF f := by
  induction fuel generalizing f with
  | zero => simp [consFuel]
  | succ fuel ih =>
    cases ho : overfull f with
    | none => rw [consFuel_succ_none ho]
    | some r =>
      cases h1 : extract1 r f with
      | none => rw [consFuel_succ_stuck1 ho h1]
      | some p =>
        obtain ⟨a, f1⟩ := p
        cases h2 : extract1 r f1 with
        | none => rw [consFuel_succ_stuck2 ho h1 h2]
        | some q =>
          obtain ⟨b, f2⟩ := q
          rw [consFuel_succ_step ho h1 h2]
          obtain ⟨ca, ita, ka, ia, rfl⟩ := extract1_shape h1
          obtain ⟨cb, itb, kb, ib, rfl⟩ := extract1_shape h2
          calc entriesF (consFuel fuel (pushRoot (linkRoots _ _) f2))
              ~ entriesF (pushRoot (linkRoots _ _) f2) := ih _
            _ ~ entriesF (.mk ca .null r ita ka ia) ++
                  (entriesF (.mk cb .null r itb kb ib) ++ entriesF f2) :=
                pll_entries ca cb r ita ka itb kb ia ib f2
            _ ~ entriesF (.mk ca .null r ita ka ia) ++ entriesF f1 :=
                List.Perm.append_left _ (extract1_entries h2).symm
            _ ~ entriesF f := (extract1_entries h1).symm

theorem consFuel_hOrd (fuel : Nat) {f : VF} (hf : hOrdF f = true) :
    hOrdF (consFuel fuel f) = true := by
  induction fuel generalizing f with
  | zero => simpa [consFuel]
  | succ fuel ih =>
    cases ho : overfull f with
    | none => rwa [consFuel_succ_none ho]
    | some r =>
      cases h1 : extract1 r f with
      | none => rwa [consFuel_succ_stuck1 ho h1]
      | some p =>
        obtain ⟨a, f1⟩ := p
        cases h2 : extract1 r f1 with
        | none => rwa [consFuel_succ_stuck2 ho h1 h2]
        | some q =>
          obtain ⟨b, f2⟩ := q
          rw [consFuel_succ_step ho h1 h2]
          obtain ⟨ca, ita, ka, ia, rfl⟩ := extract1_shape h1
          obtain ⟨cb, itb, kb, ib, rfl⟩ := extract1_shape h2
          have hx1 := extract1_hOrd h1 hf
          have hx2 := extract1_hOrd h2 hx1.2
          exact ih (pll_hOrd hx1.1 hx2.1 hx2.2)

theorem ranksOk_extract {r : Nat} {f a rest : VF} (h : extract1 r f = some (a, rest))
    (hf : ranksOk f = true) : ranksOk a = true ∧ ranksOk rest = true := by
  induction f generalizing a rest with
  | null => simp [extract1] at h
  | mk c s rk it k i ihc ihs =>
    rw [ranksOk_mk] at hf
    by_cases hr : rk = r
    · simp only [extract1, if_pos hr, Option.some.injEq, Prod.mk.injEq] at h
      obtain ⟨rfl, rfl⟩ := h
      exact ⟨ranksOk_mk.2 ⟨hf.1, hf.2.1, rfl⟩, hf.2.2⟩
    · simp only [extract1, if_neg hr] at h
      cases ho : extract1 r s with
      | none => rw [ho] at h; simp at h
      | some p =>
        obtain ⟨a1, r1⟩ := p
        rw [ho] at h
        simp only [Option.map_some', Option.some.injEq, Prod.mk.injEq] at h
        obtain ⟨rfl, rfl⟩ := h
        have := ihs ho hf.2.2
        exact ⟨this.1, ranksOk_mk.2 ⟨hf.1, hf.2.1, this.2⟩⟩

theorem consFuel_ranksOk (fuel : Nat) {f : VF} (hf : ranksOk f = true) :
    ranksOk (consFuel fuel f) = true := by
  induction fuel generalizing f with
  | zero => simpa [consFuel]
  | succ fuel ih =>
    cases ho : overfull f with
    | none => rwa [consFuel_succ_none ho]
    | some r =>
      cases h1 : extract1 r f with
      | none => rwa [consFuel_succ_stuck1 ho h1]
      | some p =>
        obtain ⟨a, f1⟩ := p
        cases h2 : extract1 r f1 with
        | none => rwa [consFuel_succ_stuck2 ho h1 h2]
        | some q =>
          obtain ⟨b, f2⟩ := q
          rw [consFuel_succ_step ho h1 h2]
          obtain ⟨ca, ita, ka, ia, rfl⟩ := extract1_shape h1
          obtain ⟨cb, itb, kb, ib, rfl⟩ := extract1_shape h2
          have hx1 := ranksOk_extract h1 hf
          have hx2 := ranksOk_extract h2 hx1.2
          exact ih (pll_ranksOk hx1.1 hx2.1 hx2.2)

theorem consFuel_bound {fuel : Nat} {f : VF} (hlen : lenF f ≤ fuel) (r' : Nat) :
    countRank r' (consFuel fuel f) ≤ 2 := by
  induction fuel generalizing f with
  | zero =>
    have hnull : f = .null := by
      cases f with
      | null => rfl
      | mk c s rk it k i => simp [lenF] at hlen
    subst hnull
    simp [consFuel, countRank]
  | succ fuel ih =>
    cases ho : overfull f with
    | none => rw [consFuel_succ_none ho]; exact overfull_none ho r'
    | some r =>
      have h3 : 3 ≤ countRank r f := overfull_some ho
      cases h1 : extract1 r f with
      | none =>
        have hsome := extract1_isSome (show 1 ≤ countRank r f by omega)
        rw [h1] at hsome
        simp at hsome
      | some p =>
        obtain ⟨a, f1⟩ := p
        have hcnt1 := extract1_count h1 r
        simp at hcnt1
        cases h2 : extract1 r f1 with
        | none =>
          have hsome := extract1_isSome (show 1 ≤ countRank r f1 by omega)
          rw [h2] at hsome
          simp at hsome
        | some q =>
          obtain ⟨b, f2⟩ := q
          rw [consFuel_succ_step ho h1 h2]
          obtain ⟨ca, ita, ka, ia, rfl⟩ := extract1_shape h1
          obtain ⟨cb, itb, kb, ib, rfl⟩ := extract1_shape h2
          have hl1 := extract1_len h1
          have hl2 := extract1_len h2
          have hlen2 : lenF (pushRoot (linkRoots (.mk ca .null r ita ka ia)
              (.mk cb .null r itb kb ib)) f2) ≤ fuel := by
            rw [pll_lenF]
            omega
          exact ih hlen2

/-! ## Scanning for the minimum -/

theorem scanMin_none_iff {f : VF} : scanMin f = none ↔ f = .null := by
  cases f with
  | null => simp [scanMin]
  | mk c s rk it k i =>
    simp only [scanMin]
    cases scanMin s with
    | none => simp
    | some p =>
      by_cases hk : k ≤ p.2 <;> simp [hk]

theorem scanMin_mem {f : VF} {p : Nat × Int} (h : scanMin f = some p) :
    ∃ it, (p.1, p.2, it) ∈ entriesF f := by
  induction f generalizing p with
  | null => simp [scanMin] at h
  | mk c s rk it k i ihc ihs =>
    rw [scanMin] at h
    cases ho : scanMin s with
    | none =>
      simp only [ho, Option.some.injEq] at h
      exact ⟨it, by rw [← h]; simp [entriesF]⟩
    | some q =>
      simp only [ho] at h
      by_cases hk : k ≤ q.2
      · rw [if_pos hk] at h
        simp only [Option.some.injEq] at h
        exact ⟨it, by rw [← h]; simp [entriesF]⟩
      · rw [if_neg hk] at h
        simp only [Option.some.injEq] at h
        subst h
        obtain ⟨it', hmem⟩ := ihs ho
        exact ⟨it', by simp [entriesF]; right; right; exact hmem⟩

theorem scanMin_le {f : VF} (hf : hOrdF f = true) {p : Nat × Int}
    (h : scanMin f = some p) : ∀ e ∈ entriesF f, p.2 ≤ e.2.1 := by
  induction f generalizing p with
  | null => simp [scanMin] at h
  | mk c s rk it k i ihc ihs =>
    rw [hOrdF_mk] at hf
    rw [scanMin] at h
    have hc := (allGE_iff k c).1 hf.1
    cases ho : scanMin s with
    | none =>
      simp only [ho, Option.some.injEq] at h
      subst h
      have hs := scanMin_none_iff.1 ho
      subst hs
      intro e he
      simp only [entriesF, List.mem_cons, List.mem_append] at he
      rcases he with rfl | he | he
      · rfl
      · exact hc e he
      · simp [entriesF] at he
    | some q =>
      simp only [ho] at h
      have hq := ihs hf.2.2 ho
      by_cases hk : k ≤ q.2
      · rw [if_pos hk] at h
        simp only [Option.some.injEq] at h
        subst h
        intro e he
        simp only [entriesF, List.mem_cons, List.mem_append] at he
        rcases he with rfl | he | he
        · rfl
        · exact hc e he
        · exact le_trans hk (hq e he)
      · rw [if_neg hk] at h
        simp only [Option.some.injEq] at h
        subst h
        push_neg at hk
        intro e he
        simp only [entriesF, List.mem_cons, List.mem_append] at he
        rcases he with rfl | he | he
        · exact le_of_lt hk
        · exact le_trans (le_of_lt hk) (hc e he)
        · exact hq e he

/-! ## Detaching subtrees -/

theorem idsF_mk (c s : VF) (rk : Nat) (it k : Int) (i : Nat) :
    idsF (.mk c s rk it k i) = i :: (idsF c ++ idsF s) := by
  simp [idsF, entriesF]

theorem mem_idsF {x : Nat} {f : VF} :
    x ∈ idsF f ↔ ∃ e ∈ entriesF f, e.1 = x := by
  simp [idsF]

theorem removeTop_spec {x : Nat} {f n rest : VF} {first : Bool}
    (h : removeTop x f = some (n, rest, first)) :
    (∃ c rk it k, n = .mk c .null rk it k x) ∧
      entriesF f ~ entriesF n ++ entriesF rest := by
  induction f generalizing n rest first with
  | null => simp [removeTop] at h
  | mk c s rk it k i ihc ihs =>
    rw [removeTop] at h
    by_cases hi : i = x
    · rw [if_pos hi] at h
      simp only [Option.some.injEq, Prod.mk.injEq] at h
      obtain ⟨rfl, rfl, rfl⟩ := h
      subst hi
      exact ⟨⟨c, rk, it, k, rfl⟩, by simp [entriesF]⟩
    · rw [if_neg hi] at h
      cases ho : removeTop x s with
      | none => rw [ho] at h; simp at h
      | some p =>
        obtain ⟨n1, r1, b1⟩ := p
        rw [ho] at h
        simp only [Option.map_some', Option.some.injEq, Prod.mk.injEq] at h
        obtain ⟨rfl, rfl, rfl⟩ := h
        obtain ⟨hsh, hperm⟩ := ihs ho
        refine ⟨hsh, ?_⟩
        simp only [entriesF]
        have hc := List.perm_iff_count.1 hperm
        rw [List.perm_iff_count]
        intro b
        have := hc b
        simp only [List.count_append, List.count_cons] at this ⊢
        omega

theorem removeTop_isSome {x : Nat} {f : VF} (h : hasTop x f = true) :
    (removeTop x f).isSome := by
  induction f with
  | null => simp [hasTop] at h
  | mk c s rk it k i ihc ihs =>
    rw [removeTop]
    by_cases hi : i = x
    · simp [if_pos hi]
    · rw [if_neg hi]
      rw [hasTop] at h
      simp only [Bool.or_eq_true, decide_eq_true_eq] at h
      rcases h with h | h
      · exact absurd h hi
      · have := ihs h
        cases ho : removeTop x s with
        | none => rw [ho] at this; simp at this
        | some p => simp [ho]

theorem removeF_spec {dec : Bool} {x : Nat} {f n rest : VF}
    (h : removeF dec x f = some (n, rest)) :
    (∃ c rk it k, n = .mk c .null rk it k x) ∧
      entriesF f ~ entriesF n ++ entriesF rest := by
  induction f generalizing n rest with
  | null => simp [removeF] at h
  | mk c s rk it k i ihc ihs =>
    rw [removeF] at h
    by_cases hi : i = x
    · rw [if_pos hi] at h
      simp only [Option.some.injEq, Prod.mk.injEq] at h
      obtain ⟨rfl, rfl⟩ := h
      subst hi
      exact ⟨⟨c, rk, it, k, rfl⟩, by simp [entriesF]⟩
    · rw [if_neg hi] at h
      cases ht : removeTop x c with
      | some p =>
        obtain ⟨n1, c1, b1⟩ := p
        simp only [ht, Option.some.injEq, Prod.mk.injEq] at h
        obtain ⟨rfl, rfl⟩ := h
        obtain ⟨hsh, hperm⟩ := removeTop_spec ht
        refine ⟨hsh, ?_⟩
        simp only [entriesF]
        have hc := List.perm_iff_count.1 hperm
        rw [List.perm_iff_count]
        intro b
        have := hc b
        simp only [List.count_append, List.count_cons] at this ⊢
        omega
      | none =>
        simp only [ht] at h
        cases hc1 : removeF dec x c with
        | some p =>
          obtain ⟨n1, c1⟩ := p
          simp only [hc1, Option.some.injEq, Prod.mk.injEq] at h
          obtain ⟨rfl, rfl⟩ := h
          obtain ⟨hsh, hperm⟩ := ihc hc1
          refine ⟨hsh, ?_⟩
          simp only [entriesF]
          have hcnt := List.perm_iff_count.1 hperm
          rw [List.perm_iff_count]
          intro b
          have := hcnt b
          simp only [List.count_append, List.count_cons] at this ⊢
          omega
        | none =>
          simp only [hc1] at h
          cases hs1 : removeF dec x s with
          | some p =>
            obtain ⟨n1, s1⟩ := p
            simp only [hs1, Option.some.injEq, Prod.mk.injEq] at h
            obtain ⟨rfl, rfl⟩ := h
            obtain ⟨hsh, hperm⟩ := ihs hs1
            refine ⟨hsh, ?_⟩
            simp only [entriesF]
            have hcnt := List.perm_iff_count.1 hperm
            rw [List.perm_iff_count]
            intro b
            have := hcnt b
            simp only [List.count_append, List.count_cons] at this ⊢
            omega
          | none => simp [hs1] at h

theorem removeF_isSome (dec : Bool) {x : Nat} {f : VF} (h : x ∈ idsF f) :
    (removeF dec x f).isSome := by
  induction f with
  | null => simp [idsF, entriesF] at h
  | mk c s rk it k i ihc ihs =>
    rw [removeF]
    by_cases hi : i = x
    · simp [if_pos hi]
    · rw [if_neg hi]
      rw [idsF_mk] at h
      simp only [List.mem_cons, List.mem_append] at h
      rcases h with rfl | h | h
      · exact absurd rfl hi
      · cases ht : removeTop x c with
        | some p => simp
        | none =>
          have := ihc h
          cases hc1 : removeF dec x c with
          | none => rw [hc1] at this; simp at this
          | some p => simp
      · cases ht : removeTop x c with
        | some p => simp
        | none =>
          cases hc1 : removeF dec x c with
          | some p => simp
          | none =>
            have := ihs h
            cases hs1 : removeF dec x s with
            | none => rw [hs1] at this; simp at this
            | some p => simp

theorem removeTop_hOrd {x : Nat} {f n rest : VF} {first : Bool}
    (h : removeTop x f = some (n, rest, first)) (hf : hOrdF f = true) :
    hOrdF n = true ∧ hOrdF rest = true := by
  induction f generalizing n rest first with
  | null => simp [removeTop] at h
  | mk c s rk it k i ihc ihs =>
    rw [hOrdF_mk] at hf
    rw [removeTop] at h
    by_cases hi : i = x
    · rw [if_pos hi] at h
      simp only [Option.some.injEq, Prod.mk.injEq] at h
      obtain ⟨rfl, rfl, rfl⟩ := h
      exact ⟨hOrdF_mk.2 ⟨hf.1, hf.2.1, rfl⟩, hf.2.2⟩
    · rw [if_neg hi] at h
      cases ho : removeTop x s with
      | none => rw [ho] at h; simp at h
      | some p =>
        obtain ⟨n1, r1, b1⟩ := p
        rw [ho] at h
        simp only [Option.map_some', Option.some.injEq, Prod.mk.injEq] at h
        obtain ⟨rfl, rfl, rfl⟩ := h
        obtain ⟨h1, h2⟩ := ihs ho hf.2.2
        exact ⟨h1, hOrdF_mk.2 ⟨hf.1, hf.2.1, h2⟩⟩

theorem allGE_of_sub {k : Int} {f g : VF}
    (hsub : ∀ e ∈ entriesF g, e ∈ entriesF f) (hf : allGE k f = true) :
    allGE k g = true :=
  (allGE_iff k g).2 fun e he => (allGE_iff k f).1 hf e (hsub e he)

theorem removeF_hOrd {dec : Bool} {x : Nat} {f n rest : VF}
    (h : removeF dec x f = some (n, rest)) (hf : hOrdF f = true) :
    hOrdF n = true ∧ hOrdF rest = true := by
  induction f generalizing n rest with
  | null => simp [removeF] at h
  | mk c s rk it k i ihc ihs =>
    rw [hOrdF_mk] at hf
    rw [removeF] at h
    by_cases hi : i = x
    · rw [if_pos hi] at h
      simp only [Option.some.injEq, Prod.mk.injEq] at h
      obtain ⟨rfl, rfl⟩ := h
      exact ⟨hOrdF_mk.2 ⟨hf.1, hf.2.1, rfl⟩, hf.2.2⟩
    · rw [if_neg hi] at h
      cases ht : removeTop x c with
      | some p =>
        obtain ⟨n1, c1, b1⟩ := p
        simp only [ht, Option.some.injEq, Prod.mk.injEq] at h
        obtain ⟨rfl, rfl⟩ := h
        obtain ⟨ho1, ho2⟩ := removeTop_hOrd ht hf.2.1
        have hperm := (removeTop_spec ht).2
        refine ⟨ho1, hOrdF_mk.2 ⟨?_, ho2, hf.2.2⟩⟩
        exact allGE_of_sub
          (fun e he => hperm.mem_iff.2 (List.mem_append.2 (Or.inr he))) hf.1
      | none =>
        cases hc1 : removeF dec x c with
        | some p =>
          obtain ⟨n1, c1⟩ := p
          simp only [ht, hc1, Option.some.injEq, Prod.mk.injEq] at h
          obtain ⟨rfl, rfl⟩ := h
          obtain ⟨ho1, ho2⟩ := ihc hc1 hf.2.1
          have hperm := (removeF_spec hc1).2
          refine ⟨ho1, hOrdF_mk.2 ⟨?_, ho2, hf.2.2⟩⟩
          exact allGE_of_sub
            (fun e he => hperm.mem_iff.2 (List.mem_append.2 (Or.inr he))) hf.1
        | none =>
          cases hs1 : removeF dec x s with
          | some p =>
            obtain ⟨n1, s1⟩ := p
            simp only [ht, hc1, hs1, Option.some.injEq, Prod.mk.injEq] at h
            obtain ⟨rfl, rfl⟩ := h
            obtain ⟨ho1, ho2⟩ := ihs hs1 hf.2.2
            exact ⟨ho1, hOrdF_mk.2 ⟨hf.1, hf.2.1, ho2⟩⟩
          | none => simp [ht, hc1, hs1] at h

/-! ## Key updates and parent keys -/

theorem hasTop_mem {x : Nat} {f : VF} (h : hasTop x f = true) : x ∈ idsF f := by
  induction f with
  | null => simp [hasTop] at h
  | mk c s rk it k i ihc ihs =>
    rw [hasTop] at h
    simp only [Bool.or_eq_true, decide_eq_true_eq] at h
    rw [idsF_mk]
    rcases h with rfl | h
    · simp
    · simp [ihs h]

theorem map_substKey_of_not_mem {x : Nat} {nk : Int} {l : List (Nat × Int × Int)}
    (h : x ∉ l.map (·.1)) : l.map (substKey x nk) = l := by
  induction l with
  | nil => rfl
  | cons a l ih =>
    simp only [List.map_cons, List.mem_cons] at h ⊢
    push_neg at h
    rw [substKey, if_neg (fun hh => h.1 hh.symm), ih h.2]

theorem setKeyF_not_mem {x : Nat} {nk : Int} {f : VF} (h : x ∉ idsF f) :
    setKeyF x nk f = f := by
  induction f with
  | null => rfl
  | mk c s rk it k i ihc ihs =>
    rw [idsF_mk] at h
    simp only [List.mem_cons, List.mem_append] at h
    push_neg at h
    rw [setKeyF, if_neg (fun hh => h.1 hh.symm), ihc h.2.1, ihs h.2.2]

theorem setKeyTop_not_mem {x : Nat} {nk : Int} {f : VF} (h : x ∉ idsF f) :
    setKeyTop x nk f = f := by
  induction f with
  | null => rfl
  | mk c s rk it k i ihc ihs =>
    rw [idsF_mk] at h
    simp only [List.mem_cons, List.mem_append] at h
    push_neg at h
    rw [setKeyTop, if_neg (fun hh => h.1 hh.symm), ihs h.2.2]

theorem setKeyF_entries (x : Nat) (nk : Int) (f : VF) :
    entriesF (setKeyF x nk f) = (entriesF f).map (substKey x nk) := by
  induction f with
  | null => rfl
  | mk c s rk it k i ihc ihs =>
    rw [setKeyF]
    simp only [entriesF, List.map_cons, List.map_append, ihc, ihs]
    congr 1
    rw [substKey]
    by_cases hi : i = x
    · simp [if_pos hi]
    · simp [if_neg hi]

theorem nodup_mk {c s : VF} {rk : Nat} {it k : Int} {i : Nat}
    (h : (idsF (.mk c s rk it k i)).Nodup) :
    i ∉ idsF c ∧ i ∉ idsF s ∧ (idsF c).Nodup ∧ (idsF s).Nodup ∧
      ∀ y ∈ idsF c, y ∉ idsF s := by
  rw [idsF_mk] at h
  simp only [List.nodup_cons, List.mem_append, List.nodup_append] at h
  push_neg at h
  exact ⟨h.1.1, h.1.2, h.2.1, h.2.2.1, h.2.2.2⟩

theorem setKeyTop_entries {x : Nat} {nk : Int} {f : VF}
    (hn : (idsF f).Nodup) (ht : hasTop x f = true) :
    entriesF (setKeyTop x nk f) = (entriesF f).map (substKey x nk) := by
  induction f with
  | null => simp [hasTop] at ht
  | mk c s rk it k i ihc ihs =>
    obtain ⟨hic, his, hnc, hns, hdisj⟩ := nodup_mk hn
    rw [hasTop] at ht
    simp only [Bool.or_eq_true, decide_eq_true_eq] at ht
    rw [setKeyTop]
    simp only [entriesF, List.map_cons, List.map_append]
    rcases ht with rfl | ht
    · rw [if_pos rfl, substKey, if_pos rfl]
      rw [setKeyTop_not_mem his, map_substKey_of_not_mem (by simpa [idsF] using hic),
        map_substKey_of_not_mem (by simpa [idsF] using his)]
    · have hxs := hasTop_mem ht
      have hix : i ≠ x := fun hh => his (hh ▸ hxs)
      rw [if_neg hix, substKey, if_neg hix,
        map_substKey_of_not_mem (by simpa [idsF] using fun hc => hdisj x hc hxs),
        ihs hns ht]

theorem skel_setKeyF (x : Nat) (nk : Int) (f : VF) :
    skel (setKeyF x nk f) = skel f := by
  induction f with
  | null => rfl
  | mk c s rk it k i ihc ihs => rw [setKeyF, skel, skel, ihc, ihs]

theorem skel_setKeyTop (x : Nat) (nk : Int) (f : VF) :
    skel (setKeyTop x nk f) = skel f := by
  induction f with
  | null => rfl
  | mk c s rk it k i ihc ihs => rw [setKeyTop, skel, skel, ihs]

theorem countRank_setKeyF (x : Nat) (nk : Int) (f : VF) (r : Nat) :
    countRank r (setKeyF x nk f) = countRank r f := by
  induction f with
  | null => rfl
  | mk c s rk it k i ihc ihs => rw [setKeyF, countRank, countRank, ihs]

theorem countRank_setKeyTop (x : Nat) (nk : Int) (f : VF) (r : Nat) :
    countRank r (setKeyTop x nk f) = countRank r f := by
  induction f with
  | null => rfl
  | mk c s rk it k i ihc ihs => rw [setKeyTop, countRank, countRank, ihs]

theorem maxRankF_setKeyF (x : Nat) (nk : Int) (f : VF) :
    maxRankF (setKeyF x nk f) = maxRankF f := by
  induction f with
  | null => rfl
  | mk c s rk it k i ihc ihs => rw [setKeyF, maxRankF, maxRankF, ihs]

theorem maxRankF_setKeyTop (x : Nat) (nk : Int) (f : VF) :
    maxRankF (setKeyTop x nk f) = maxRankF f := by
  induction f with
  | null => rfl
  | mk c s rk it k i ihc ihs => rw [setKeyTop, maxRankF, maxRankF, ihs]

theorem parentKeyF_mem {x : Nat} {f : VF} {pk : Int}
    (h : parentKeyF x f = some pk) : ∃ e ∈ entriesF f, e.2.1 = pk := by
  induction f generalizing pk with
  | null => simp [parentKeyF] at h
  | mk c s rk it k i ihc ihs =>
    rw [parentKeyF] at h
    by_cases htc : hasTop x c
    · rw [if_pos htc] at h
      simp only [Option.some.injEq] at h
      exact ⟨(i, k, it), by simp [entriesF], h⟩
    · rw [if_neg htc] at h
      cases hc : parentKeyF x c with
      | some pk' =>
        rw [hc] at h
        simp only [Option.some.injEq] at h
        subst h
        obtain ⟨e, hm, hk⟩ := ihc hc
        exact ⟨e, by simp [entriesF]; right; left; exact hm, hk⟩
      | none =>
        rw [hc] at h
        obtain ⟨e, hm, hk⟩ := ihs h
        exact ⟨e, by simp [entriesF]; right; right; exact hm, hk⟩

theorem parentKeyF_mem_ids {x : Nat} {f : VF} {pk : Int}
    (h : parentKeyF x f = some pk) : x ∈ idsF f := by
  induction f generalizing pk with
  | null => simp [parentKeyF] at h
  | mk c s rk it k i ihc ihs =>
    rw [parentKeyF] at h
    rw [idsF_mk]
    by_cases htc : hasTop x c
    · simp [hasTop_mem htc]
    · rw [if_neg htc] at h
      cases hc : parentKeyF x c with
      | some pk' => simp [ihc hc]
      | none =>
        rw [hc] at h
        simp [ihs h]

theorem parentKeyF_isSome {x : Nat} {f : VF} (hm : x ∈ idsF f)
    (ht : hasTop x f = false) : (parentKeyF x f).isSome := by
  induction f with
  | null => simp [idsF, entriesF] at hm
  | mk c s rk it k i ihc ihs =>
    rw [hasTop] at ht
    simp only [Bool.or_eq_false_iff, decide_eq_false_iff_not] at ht
    rw [idsF_mk] at hm
    simp only [List.mem_cons, List.mem_append] at hm
    rw [parentKeyF]
    by_cases htc : hasTop x c
    · simp [if_pos htc]
    · rw [if_neg htc]
      rcases hm with rfl | hm | hm
      · exact absurd rfl ht.1
      · have := ihc hm (by simpa using htc)
        cases hc : parentKeyF x c with
        | none => rw [hc] at this; simp at this
        | some pk => simp [hc]
      · cases hc : parentKeyF x c with
        | some pk => simp [hc]
        | none =>
          have := ihs hm ht.2
          cases hs : parentKeyF x s with
          | none => rw [hs] at this; simp at this
          | some pk => simp [hc, hs]

theorem parentKeyF_of_hasTop {x : Nat} {f : VF} (hn : (idsF f).Nodup)
    (ht : hasTop x f = true) : parentKeyF x f = none := by
  induction f with
  | null => simp [parentKeyF]
  | mk c s rk it k i ihc ihs =>
    obtain ⟨hic, his, hnc, hns, hdisj⟩ := nodup_mk hn
    rw [hasTop] at ht
    simp only [Bool.or_eq_true, decide_eq_true_eq] at ht
    rw [parentKeyF]
    rcases ht with rfl | ht
    · have htc : hasTop i c = false := by
        cases hh : hasTop i c with
        | false => rfl
        | true => exact absurd (hasTop_mem hh) hic
      rw [if_neg (by simp [htc])]
      have hpc : parentKeyF i c = none := by
        cases hh : parentKeyF i c with
        | none => rfl
        | some pk => exact absurd (parentKeyF_mem_ids hh) hic
      rw [hpc]
      cases hh : parentKeyF i s with
      | none => rfl
      | some pk => exact absurd (parentKeyF_mem_ids hh) his
    · have hxs := hasTop_mem ht
      have htc : hasTop x c = false := by
        cases hh : hasTop x c with
        | false => rfl
        | true => exact absurd hxs (hdisj x (hasTop_mem hh))
      rw [if_neg (by simp [htc])]
      have hpc : parentKeyF x c = none := by
        cases hh : parentKeyF x c with
        | none => rfl
        | some pk => exact absurd hxs (hdisj x (parentKeyF_mem_ids hh))
      rw [hpc]
      exact ihs hns ht

theorem setKeyTop_hOrd {x : Nat} {nk : Int} {f : VF} (hf : hOrdF f = true)
    (hk : ∀ e ∈ entriesF f, e.1 = x → nk ≤ e.2.1) :
    hOrdF (setKeyTop x nk f) = true := by
  induction f with
  | null => simpa [setKeyTop]
  | mk c s rk it k i ihc ihs =>
    rw [hOrdF_mk] at hf
    rw [setKeyTop, hOrdF_mk]
    have hks : ∀ e ∈ entriesF s, e.1 = x → nk ≤ e.2.1 := fun e he hx =>
      hk e (by simp only [entriesF, List.mem_cons, List.mem_append]; exact .inr (.inr he)) hx
    by_cases hi : i = x
    · rw [if_pos hi]
      have hnk : nk ≤ k := hk (i, k, it) (by simp [entriesF]) hi
      exact ⟨allGE_mono hnk hf.1, hf.2.1, ihs hf.2.2 hks⟩
    · rw [if_neg hi]
      exact ⟨hf.1, hf.2.1, ihs hf.2.2 hks⟩

theorem setKeyF_hOrd {x : Nat} {nk : Int} {f : VF} (hf : hOrdF f = true)
    (hn : (idsF f).Nodup)
    (hp : ∀ pk, parentKeyF x f = some pk → pk ≤ nk)
    (hk : ∀ e ∈ entriesF f, e.1 = x → nk ≤ e.2.1) :
    hOrdF (setKeyF x nk f) = true := by
  induction f with
  | null => simpa [setKeyF]
  | mk c s rk it k i ihc ihs =>
    obtain ⟨hic, his, hnc, hns, hdisj⟩ := nodup_mk hn
    rw [hOrdF_mk] at hf
    rw [setKeyF, hOrdF_mk]
    have hkc : ∀ e ∈ entriesF c, e.1 = x → nk ≤ e.2.1 := fun e he hx =>
      hk e (by simp only [entriesF, List.mem_cons, List.mem_append]; exact .inr (.inl he)) hx
    have hks : ∀ e ∈ entriesF s, e.1 = x → nk ≤ e.2.1 := fun e he hx =>
      hk e (by simp only [entriesF, List.mem_cons, List.mem_append]; exact .inr (.inr he)) hx
    by_cases hi : i = x
    · rw [if_pos hi]
      have hxc : x ∉ idsF c := hi ▸ hic
      have hxs : x ∉ idsF s := hi ▸ his
      rw [setKeyF_not_mem hxc, setKeyF_not_mem hxs]
      have hnk : nk ≤ k := hk (i, k, it) (by simp [entriesF]) hi
      exact ⟨allGE_mono hnk hf.1, hf.2.1, hf.2.2⟩
    · rw [if_neg hi]
      by_cases htc : hasTop x c = true
      · -- x is a direct child of this node, so `k` is x's parent key
        have hpk : k ≤ nk := by
          refine hp k ?_
          rw [parentKeyF, if_pos htc]
        have hporig : parentKeyF x c = none := parentKeyF_of_hasTop hnc htc
        refine ⟨?_, ?_, ?_⟩
        · rw [allGE_iff]
          intro e he
          rw [setKeyF_entries] at he
          obtain ⟨e0, he0, rfl⟩ := List.mem_map.1 he
          rw [substKey]
          by_cases hx0 : e0.1 = x
          · rw [if_pos hx0]
            exact hpk
          · rw [if_neg hx0]
            exact (allGE_iff k c).1 hf.1 e0 he0
        · exact ihc hf.2.1 hnc (fun pk hpk' => by rw [hporig] at hpk'; cases hpk') hkc
        · refine ihs hf.2.2 hns (fun pk hpk' => ?_) hks
          exact absurd (hdisj x (hasTop_mem htc)) (by simp [parentKeyF_mem_ids hpk'])
      · -- x is not a direct child here
        have htc' : hasTop x c = false := by simpa using htc
        by_cases hxc : x ∈ idsF c
        · -- x lies deeper inside c, with a parent inside c
          have hsome := parentKeyF_isSome hxc htc'
          cases hpc : parentKeyF x c with
          | none => rw [hpc] at hsome; simp at hsome
          | some pk' =>
            have hfp : parentKeyF x (VF.mk c s rk it k i) = some pk' := by
              rw [parentKeyF, if_neg (by simp [htc']), hpc]
            have hpk' : pk' ≤ nk := hp pk' hfp
            have hkpk : k ≤ pk' := by
              obtain ⟨e', he', hke⟩ := parentKeyF_mem hpc
              rw [← hke]
              exact (allGE_iff k c).1 hf.1 e' he'
            refine ⟨?_, ?_, ?_⟩
            · rw [allGE_iff]
              intro e he
              rw [setKeyF_entries] at he
              obtain ⟨e0, he0, rfl⟩ := List.mem_map.1 he
              rw [substKey]
              by_cases hx0 : e0.1 = x
              · rw [if_pos hx0]
                exact le_trans hkpk hpk'
              · rw [if_neg hx0]
                exact (allGE_iff k c).1 hf.1 e0 he0
            · exact ihc hf.2.1 hnc (fun pk hpk2 => by rw [hpc] at hpk2; injection hpk2 with hh; exact hh ▸ hpk') hkc
            · refine ihs hf.2.2 hns (fun pk hpk2 => ?_) hks
              exact absurd (hdisj x hxc) (by simp [parentKeyF_mem_ids hpk2])
        · -- x is not inside c at all
          rw [setKeyF_not_mem hxc]
          have hpc : parentKeyF x c = none := by
            cases hh : parentKeyF x c with
            | none => rfl
            | some pk => exact absurd (parentKeyF_mem_ids hh) hxc
          refine ⟨hf.1, ?_, ?_⟩
          · exact hf.2.1
          · refine ihs hf.2.2 hns (fun pk hpk2 => ?_) hks
            refine hp pk ?_
            rw [parentKeyF, if_neg (by simp [htc']), hpc, hpk2]

/-! ## The heap invariant -/

theorem rankBoundOk_count {f0 g : VF} (h : rankBoundOk f0 g = true) {r : Nat}
    (hr : 1 ≤ countRank r g) : countRank r f0 ≤ 2 := by
  induction g with
  | null => simp [countRank] at hr
  | mk c s rk it k i ihc ihs =>
    rw [rankBoundOk] at h
    simp only [Bool.and_eq_true, decide_eq_true_eq] at h
    rw [countRank] at hr
    by_cases hrk : rk = r
    · exact hrk ▸ h.1
    · rw [if_neg hrk] at hr
      exact ihs h.2 (by omega)

theorem rankBoundOk_iff {f : VF} : rankBoundOk f f = true ↔ ∀ r, countRank r f ≤ 2 := by
  constructor
  · intro h r
    by_cases hr : 1 ≤ countRank r f
    · exact rankBoundOk_count h hr
    · omega
  · intro h
    have haux : ∀ g, rankBoundOk f g = true := by
      intro g
      induction g with
      | null => rfl
      | mk c s rk it k i ihc ihs =>
        rw [rankBoundOk]
        simp only [Bool.and_eq_true, decide_eq_true_eq]
        exact ⟨h rk, ihs⟩
    exact haux f

theorem valid_iff {h : violation_heap} : valid h = true ↔ Valid h := by
  rw [valid]
  simp only [Bool.and_eq_true, beq_iff_eq, decide_eq_true_eq, List.all_eq_true]
  constructor
  · rintro ⟨⟨⟨⟨⟨⟨h1, h2⟩, h3⟩, h4⟩, h5⟩, h6⟩, h7⟩
    refine ⟨h1, h2, h3, fun e he => h4 e he, rankBoundOk_iff.1 h5, ?_, ?_, h7⟩
    · intro hm
      rw [minOk, hm] at h6
      simpa using h6
    · intro m hm
      simp only [minOk, hm] at h6
      cases hfe : findEntry h m with
      | none => simp [hfe] at h6
      | some em =>
        simp only [hfe, Bool.and_eq_true, decide_eq_true_eq, List.all_eq_true] at h6
        exact ⟨h6.1, em, rfl, fun e' he' => by
          have := h6.2 e' he'
          simpa using this⟩
  · rintro ⟨h1, h2, h3, h4, h5, h6, h7, h8⟩
    refine ⟨⟨⟨⟨⟨⟨h1, h2⟩, h3⟩, fun e he => h4 e he⟩, rankBoundOk_iff.2 h5⟩, ?_⟩, h8⟩
    cases hm : h.minimum with
    | none =>
      rw [minOk, hm]
      simp [h6 hm]
    | some m =>
      obtain ⟨hs, e, hfe, hmin⟩ := h7 m hm
      simp only [minOk, hm, hfe, Bool.and_eq_true, decide_eq_true_eq, List.all_eq_true]
      exact ⟨hs, fun e' he' => by simpa using hmin e' he'⟩

theorem create_valid (n : Nat) : Valid (pq_create n) := by
  refine ⟨rfl, rfl, by simp [pq_create, idsF, entriesF], ?_, ?_, fun _ => rfl, ?_, rfl⟩
  · intro e he
    simp [pq_create, entriesH, entriesF] at he
  · intro r
    simp [pq_create, countRank]
  · intro m hm
    simp [pq_create] at hm

theorem findEntry_of_mem {h : violation_heap} (hn : (idsF h.roots).Nodup)
    {e : Nat × Int × Int} (he : e ∈ entriesH h) : findEntry h e.1 = some e :=
  find_unique hn he

theorem entriesH_length_pos {h : violation_heap} (hv : Valid h) (hs : h.size ≠ 0) :
    entriesH h ≠ [] := by
  intro hnil
  rw [hv.sizeEq, hnil] at hs
  simp at hs

/-! ## Specification of insert -/

theorem updMin_ne_none (h : violation_heap) (x : Nat) (nk : Int) :
    updMin h x nk ≠ none := by
  rw [updMin]
  cases h.minimum with
  | none => simp
  | some m =>
    cases hfe : findEntry h m with
    | none => simp [hfe]
    | some em =>
      simp only [hfe]
      by_cases hlt : nk < em.2.1 <;> simp [hlt]

theorem insert_spec {h : violation_heap} (hv : Valid h) (it k : Int) :
    Valid (pq_insert h it k).1 ∧
    entriesH (pq_insert h it k).1 ~ (h.next_id, k, it) :: entriesH h ∧
    (pq_insert h it k).1.size = h.size + 1 ∧
    (pq_insert h it k).1.next_id = h.next_id + 1 := by
  have hperm : entriesH (pq_insert h it k).1 ~ (h.next_id, k, it) :: entriesH h := by
    show entriesF (consolidate (pushRoot (.mk .null .null 0 it k h.next_id) h.roots)) ~ _
    rw [consolidate]
    refine (consFuel_entries _ _).trans ?_
    rw [entriesF_pushRoot]
    have hnil : entriesF (VF.null) ++ entriesF h.roots = entriesH h := by
      simp [entriesH, entriesF]
    rw [hnil]
  have hids : idsF (pq_insert h it k).1.roots =
      (entriesH (pq_insert h it k).1).map (·.1) := rfl
  have hnodup : (idsF (pq_insert h it k).1.roots).Nodup := by
    rw [hids, (hperm.map (·.1)).nodup_iff]
    simp only [List.map_cons, List.nodup_cons]
    refine ⟨?_, hv.nodup⟩
    intro hmem
    simp only [List.mem_map] at hmem
    obtain ⟨e, he, heq⟩ := hmem
    have := hv.idsLt e he
    omega
  have hOrd' : hOrdF (pq_insert h it k).1.roots = true := by
    show hOrdF (consolidate (pushRoot (.mk .null .null 0 it k h.next_id) h.roots)) = true
    rw [consolidate]
    apply consFuel_hOrd
    rw [show pushRoot (VF.mk .null .null 0 it k h.next_id) h.roots =
      .mk .null h.roots 0 it k h.next_id from rfl, hOrdF_mk]
    exact ⟨rfl, rfl, hv.hord⟩
  have hminSome : ∀ m, (pq_insert h it k).1.minimum = some m →
      (pq_insert h it k).1.size ≠ 0 ∧
      ∃ e, findEntry (pq_insert h it k).1 m = some e ∧
        ∀ e' ∈ entriesH (pq_insert h it k).1, e.2.1 ≤ e'.2.1 := by
    intro m hm
    refine ⟨by simp [pq_insert], ?_⟩
    have hm' : updMin h h.next_id k = some m := hm
    rw [updMin] at hm'
    have hnew : (h.next_id, k, it) ∈ entriesH (pq_insert h it k).1 :=
      hperm.mem_iff.2 (List.mem_cons_self _ _)
    cases hm0 : h.minimum with
    | none =>
      simp only [hm0, Option.some.injEq] at hm'
      subst hm'
      refine ⟨(h.next_id, k, it), findEntry_of_mem hnodup hnew, ?_⟩
      intro e' he'
      rcases List.mem_cons.1 (hperm.mem_iff.1 he') with rfl | he'
      · exact le_refl _
      · exfalso
        have hz := hv.minNone hm0
        rw [hv.sizeEq] at hz
        rw [List.length_eq_zero.1 hz] at he'
        cases he'
    | some m0 =>
      obtain ⟨hs0, em, hfe, hmin⟩ := hv.minSome m0 hm0
      simp only [hm0, hfe] at hm'
      by_cases hlt : k < em.2.1
      · rw [if_pos hlt] at hm'
        simp only [Option.some.injEq] at hm'
        subst hm'
        refine ⟨(h.next_id, k, it), findEntry_of_mem hnodup hnew, ?_⟩
        intro e' he'
        rcases List.mem_cons.1 (hperm.mem_iff.1 he') with rfl | he'
        · exact le_refl _
        · exact le_trans (le_of_lt hlt) (hmin e' he')
      · rw [if_neg hlt] at hm'
        simp only [Option.some.injEq] at hm'
        subst hm'
        have hem : em ∈ entriesH (pq_insert h it k).1 :=
          hperm.mem_iff.2 (List.mem_cons_of_mem _ (find_mem hfe).1)
        have hem1 : em.1 = m0 := (find_mem hfe).2
        refine ⟨em, hem1 ▸ findEntry_of_mem hnodup hem, ?_⟩
        intro e' he'
        rcases List.mem_cons.1 (hperm.mem_iff.1 he') with rfl | he'
        · exact le_of_not_lt hlt
        · exact hmin e' he'
  refine ⟨⟨?_, hOrd', hnodup, ?_, ?_, ?_, hminSome, rfl⟩, hperm, rfl, rfl⟩
  · show h.size + 1 = (entriesH (pq_insert h it k).1).length
    rw [hperm.length_eq]
    simp [hv.sizeEq]
  · intro e he
    show e.1 < h.next_id + 1
    rcases List.mem_cons.1 (hperm.mem_iff.1 he) with rfl | he'
    · omega
    · have := hv.idsLt e he'
      omega
  · intro r
    show countRank r (consolidate (pushRoot (.mk .null .null 0 it k h.next_id) h.roots)) ≤ 2
    rw [consolidate]
    exact consFuel_bound le_rfl r
  · intro hm
    exact absurd hm (updMin_ne_none h h.next_id k)

/-! ## Specification of delete -/

theorem hOrdF_appendF {f g : VF} (hf : hOrdF f = true) (hg : hOrdF g = true) :
    hOrdF (appendF f g) = true := by
  induction f with
  | null => simpa [appendF]
  | mk c s rk it k i ihc ihs =>
    rw [hOrdF_mk] at hf
    rw [appendF, hOrdF_mk]
    exact ⟨hf.1, hf.2.1, ihs hf.2.2⟩

theorem delete_spec {h : violation_heap} (hv : Valid h) {e : Nat × Int × Int}
    (he : e ∈ entriesH h) :
    (pq_delete h e.1).1 = .ok e.2.1 ∧
    Valid (pq_delete h e.1).2 ∧
    e :: entriesH (pq_delete h e.1).2 ~ entriesH h ∧
    (pq_delete h e.1).2.size = h.size - 1 ∧
    (pq_delete h e.1).2.next_id = h.next_id := by
  have hxin : e.1 ∈ idsF h.roots := by
    rw [mem_idsF]
    exact ⟨e, he, rfl⟩
  cases hrem : removeF false e.1 h.roots with
  | none =>
    have := removeF_isSome false hxin
    rw [hrem] at this
    simp at this
  | some p =>
    obtain ⟨n, rest⟩ := p
    obtain ⟨⟨c, rk, itn, kn, rfl⟩, hperm0⟩ := removeF_spec hrem
    have hmemn : (e.1, kn, itn) ∈ entriesH h := by
      refine hperm0.mem_iff.2 ?_
      simp [entriesF]
    have h1 : findEntry h e.1 = some e := findEntry_of_mem hv.nodup he
    have h2 : findEntry h e.1 = some (e.1, kn, itn) :=
      findEntry_of_mem hv.nodup hmemn
    have heq : e = (e.1, kn, itn) := by
      have := h1.symm.trans h2
      simpa using this
    have hkn : kn = e.2.1 := by rw [heq]
    have hL : entriesH h ~ e :: (entriesF c ++ entriesF rest) := by
      rw [heq]
      refine hperm0.trans ?_
      simp only [entriesF, List.cons_append, List.append_nil]
      exact List.Perm.refl _
    have hres1 : (pq_delete h e.1).1 = .ok kn := by
      simp only [pq_delete, hrem, keyN]
    have hroots : (pq_delete h e.1).2.roots = consolidate (appendF c rest) := by
      simp only [pq_delete, hrem, childN]
    have hsize : (pq_delete h e.1).2.size = h.size - 1 := by
      simp only [pq_delete, hrem]
    have hnext : (pq_delete h e.1).2.next_id = h.next_id := by
      simp only [pq_delete, hrem]
    have hperm : entriesH (pq_delete h e.1).2 ~ entriesF c ++ entriesF rest := by
      show entriesF (pq_delete h e.1).2.roots ~ _
      rw [hroots, consolidate]
      refine (consFuel_entries _ _).trans ?_
      rw [entriesF_appendF]
    have hperm' : e :: entriesH (pq_delete h e.1).2 ~ entriesH h :=
      (hperm.cons e).trans hL.symm
    have hlen' : (entriesH (pq_delete h e.1).2).length = h.size - 1 := by
      have := hperm'.length_eq
      simp only [List.length_cons] at this
      rw [hv.sizeEq]
      omega
    have hOrdn := removeF_hOrd hrem hv.hord
    have hOrdc : hOrdF c = true := (hOrdF_mk.1 hOrdn.1).2.1
    have hOrd' : hOrdF (pq_delete h e.1).2.roots = true := by
      rw [hroots, consolidate]
      exact consFuel_hOrd _ (hOrdF_appendF hOrdc hOrdn.2)
    have hids' : idsF (pq_delete h e.1).2.roots =
        (entriesH (pq_delete h e.1).2).map (·.1) := rfl
    have hnodup' : (idsF (pq_delete h e.1).2.roots).Nodup := by
      rw [hids']
      have hmap := hperm'.map (·.1)
      have hnall : (e.1 :: (entriesH (pq_delete h e.1).2).map (·.1)).Nodup := by
        rw [List.map_cons] at hmap
        exact hmap.nodup_iff.2 hv.nodup
      exact hnall.of_cons
    have hsub : ∀ e' ∈ entriesH (pq_delete h e.1).2, e' ∈ entriesH h := fun e' he' =>
      hperm'.mem_iff.1 (List.mem_cons_of_mem _ he')
    have hminN : ∀ m, (pq_delete h e.1).2.minimum = some m →
        (pq_delete h e.1).2.size ≠ 0 ∧
        ∃ em, findEntry (pq_delete h e.1).2 m = some em ∧
          ∀ e' ∈ entriesH (pq_delete h e.1).2, em.2.1 ≤ e'.2.1 := by
      intro m hm
      have hm0 : (scanMin (pq_delete h e.1).2.roots).map (·.1) = some m := by
        rw [← hm]
        simp only [pq_delete, hrem, childN]
      cases hscan : scanMin (pq_delete h e.1).2.roots with
      | none => rw [hscan] at hm0; simp at hm0
      | some q =>
        rw [hscan] at hm0
        simp only [Option.map_some', Option.some.injEq] at hm0
        obtain ⟨itm, hmm⟩ := scanMin_mem hscan
        have hmem' : (q.1, q.2, itm) ∈ entriesH (pq_delete h e.1).2 := hmm
        have hfe' : findEntry (pq_delete h e.1).2 m = some (q.1, q.2, itm) := by
          rw [← hm0]
          exact findEntry_of_mem hnodup' hmem'
        refine ⟨?_, ⟨(q.1, q.2, itm), hfe', fun e' he' => scanMin_le hOrd' hscan e' he'⟩⟩
        rw [hsize]
        intro hz
        rw [hz] at hlen'
        rw [List.length_eq_zero] at hlen'
        rw [hlen'] at hmem'
        cases hmem'
    refine ⟨hkn ▸ hres1, ⟨?_, hOrd', hnodup', ?_, ?_, ?_, hminN, ?_⟩, hperm', hsize, hnext⟩
    · rw [hsize, hlen']
    · intro e' he'
      rw [hnext]
      exact hv.idsLt e' (hsub e' he')
    · intro r
      rw [hroots, consolidate]
      exact consFuel_bound le_rfl r
    · intro hm
      have hm0 : (scanMin (pq_delete h e.1).2.roots).map (·.1) = none := by
        rw [← hm]
        simp only [pq_delete, hrem, childN]
      rw [Option.map_eq_none'] at hm0
      have hnull := scanMin_none_iff.1 hm0
      have hent : entriesH (pq_delete h e.1).2 = [] := by
        show entriesF (pq_delete h e.1).2.roots = []
        rw [hnull, entriesF]
      rw [hsize]
      rw [hent] at hlen'
      simp only [List.length_nil] at hlen'
      omega
    · simp only [pq_delete, hrem]

/-! ## Specification of find-min and delete-min -/

theorem find_min_ok {h : violation_heap} (hv : Valid h) (hs : h.size ≠ 0) :
    ∃ m e, h.minimum = some m ∧ findEntry h m = some e ∧
      pq_find_min h = .ok e ∧ e ∈ entriesH h ∧ ∀ e' ∈ entriesH h, e.2.1 ≤ e'.2.1 := by
  cases hm : h.minimum with
  | none => exact absurd (hv.minNone hm) hs
  | some m =>
    obtain ⟨hs0, e, hfe, hmin⟩ := hv.minSome m hm
    refine ⟨m, e, rfl, hfe, ?_, (find_mem hfe).1, hmin⟩
    rw [pq_find_min, if_neg hs]
    simp [hm, hfe]

theorem deleteMin_spec {h : violation_heap} (hv : Valid h) (hs : h.size ≠ 0) :
    ∃ e, e ∈ entriesH h ∧ (∀ e' ∈ entriesH h, e.2.1 ≤ e'.2.1) ∧
      pq_find_min h = .ok e ∧
      (pq_delete_min h).1 = .ok e.2.1 ∧
      Valid (pq_delete_min h).2 ∧
      e :: entriesH (pq_delete_min h).2 ~ entriesH h ∧
      (pq_delete_min h).2.size = h.size - 1 := by
  obtain ⟨m, e, hm, hfe, hfm, hmem, hmin⟩ := find_min_ok hv hs
  have hme : e.1 = m := (find_mem hfe).2
  have hdm : pq_delete_min h = pq_delete h e.1 := by
    rw [pq_delete_min, if_neg hs]
    simp [hm, hme]
  obtain ⟨hd1, hd2, hd3, hd4, hd5⟩ := delete_spec hv hmem
  rw [hdm]
  exact ⟨e, hmem, hmin, hfm, hd1, hd2, hd3, hd4⟩

/-! ## Specification of decrease-key -/

theorem nodup_key_unique {l : List (Nat × Int × Int)} (hn : (l.map (·.1)).Nodup)
    {a b : Nat × Int × Int} (ha : a ∈ l) (hb : b ∈ l) (hab : a.1 = b.1) : a = b := by
  have h1 := find_unique hn ha
  have h2 := find_unique hn hb
  rw [hab] at h1
  rw [h1] at h2
  simpa using h2

theorem map_fst_substKey (x : Nat) (nk : Int) (l : List (Nat × Int × Int)) :
    (l.map (substKey x nk)).map (·.1) = l.map (·.1) := by
  rw [List.map_map]
  congr 1
  funext e
  simp only [Function.comp_apply, substKey]
  split <;> rfl

theorem decrease_valid_core {h h' : violation_heap} (hv : Valid h)
    {x : Nat} {nk : Int} {e : Nat × Int × Int}
    (hfe : findEntry h x = some e) (hnk : nk ≤ e.2.1)
    (hperm : entriesH h' ~ (entriesH h).map (substKey x nk))
    (hord : hOrdF h'.roots = true)
    (hbound : ∀ r, countRank r h'.roots ≤ 2)
    (hmin : h'.minimum = updMin h x nk)
    (hlarge : h'.largest_rank = maxRankF h'.roots)
    (hsize : h'.size = h.size) (hnext : h'.next_id = h.next_id) :
    Valid h' := by
  obtain ⟨hmem, hex⟩ := find_mem hfe
  have hids' : idsF h'.roots = (entriesH h').map (·.1) := rfl
  have hidperm : (entriesH h').map (·.1) ~ (entriesH h).map (·.1) := by
    refine (hperm.map (·.1)).trans ?_
    rw [map_fst_substKey]
  have hnodup' : (idsF h'.roots).Nodup := by
    rw [hids', hidperm.nodup_iff]
    exact hv.nodup
  have hsz : h.size ≠ 0 := by
    rw [hv.sizeEq]
    intro hz
    rw [List.length_eq_zero] at hz
    rw [hz] at hmem
    cases hmem
  cases hm0 : h.minimum with
  | none => exact absurd (hv.minNone hm0) hsz
  | some m0 =>
    obtain ⟨hs0, em, hfem, hminp⟩ := hv.minSome m0 hm0
    have hsubstmem : ∀ e0 ∈ entriesH h, substKey x nk e0 ∈ entriesH h' := fun e0 he0 =>
      hperm.mem_iff.2 (List.mem_map_of_mem _ he0)
    have hmem' : ∀ e'' ∈ entriesH h', ∃ e0 ∈ entriesH h, e'' = substKey x nk e0 := by
      intro e'' he''
      obtain ⟨e0, he0, heq⟩ := List.mem_map.1 (hperm.mem_iff.1 he'')
      exact ⟨e0, he0, heq.symm⟩
    have hkey_x : ∀ e0 ∈ entriesH h, e0.1 = x → e0 = e := fun e0 he0 h0 =>
      nodup_key_unique hv.nodup he0 hmem (h0.trans hex.symm)
    have hsx : substKey x nk e = (x, nk, e.2.2) := by
      rw [substKey, if_pos hex, hex]
    have hmemx : (x, nk, e.2.2) ∈ entriesH h' := by
      rw [← hsx]
      exact hsubstmem e hmem
    refine ⟨?_, hord, hnodup', ?_, hbound, ?_, ?_, hlarge⟩
    · rw [hsize, hperm.length_eq, List.length_map, hv.sizeEq]
    · intro e'' he''
      obtain ⟨e0, he0, rfl⟩ := hmem' e'' he''
      have hfst : (substKey x nk e0).1 = e0.1 := by
        rw [substKey]
        split <;> rfl
      rw [hnext, hfst]
      exact hv.idsLt e0 he0
    · intro hnone
      rw [hmin] at hnone
      exact absurd hnone (updMin_ne_none h x nk)
    · intro m hm
      rw [hmin] at hm
      simp only [updMin, hm0, hfem] at hm
      refine ⟨by rw [hsize]; exact hsz, ?_⟩
      by_cases hcmp : nk < em.2.1
      · rw [if_pos hcmp] at hm
        simp only [Option.some.injEq] at hm
        subst hm
        refine ⟨(x, nk, e.2.2), findEntry_of_mem hnodup' hmemx, ?_⟩
        intro e'' he''
        obtain ⟨e0, he0, rfl⟩ := hmem' e'' he''
        rw [substKey]
        by_cases h0 : e0.1 = x
        · rw [if_pos h0]
        · rw [if_neg h0]
          exact le_trans (le_of_lt hcmp) (hminp e0 he0)
      · rw [if_neg hcmp] at hm
        simp only [Option.some.injEq] at hm
        subst hm
        push_neg at hcmp
        by_cases hmx : m0 = x
        · -- the minimum pointer designates the decreased node itself
          have hfex : findEntry h m0 = some e := by rw [hmx]; exact hfe
          have hem_e : em = e := Option.some.inj (hfem.symm.trans hfex)
          have hfind' : findEntry h' m0 = some (x, nk, e.2.2) := by
            rw [hmx]
            exact findEntry_of_mem hnodup' hmemx
          refine ⟨(x, nk, e.2.2), hfind', ?_⟩
          intro e'' he''
          obtain ⟨e0, he0, rfl⟩ := hmem' e'' he''
          rw [substKey]
          by_cases h0 : e0.1 = x
          · rw [if_pos h0]
          · rw [if_neg h0]
            refine le_trans hnk ?_
            rw [← hem_e]
            exact hminp e0 he0
        · -- the minimum pointer designates another node, whose key is unchanged
          have hsme : substKey x nk em = em := by
            rw [substKey, if_neg (by rw [(find_mem hfem).2]; exact hmx)]
          have hmemm : em ∈ entriesH h' := by
            rw [← hsme]
            exact hsubstmem em (find_mem hfem).1
          have hfem' : findEntry h' m0 = some em := by
            have := findEntry_of_mem hnodup' hmemm
            rwa [(find_mem hfem).2] at this
          refine ⟨em, hfem', ?_⟩
          intro e'' he''
          obtain ⟨e0, he0, rfl⟩ := hmem' e'' he''
          rw [substKey]
          by_cases h0 : e0.1 = x
          · rw [if_pos h0]
            exact hcmp
          · rw [if_neg h0]
            exact hminp e0 he0

theorem decreaseKey_valid {h : violation_heap} (hv : Valid h) (x : Nat) (nk : Int) :
    Valid (pq_decrease_key h x nk).2 := by
  cases hfe : findEntry h x with
  | none =>
    simp only [pq_decrease_key, hfe]
    exact hv
  | some e =>
    by_cases hlt : e.2.1 < nk
    · simp only [pq_decrease_key, hfe, if_pos hlt]
      exact hv
    · have hnk : nk ≤ e.2.1 := le_of_not_lt hlt
      obtain ⟨hmem, hex⟩ := find_mem hfe
      have hkx : ∀ e0 ∈ entriesH h, e0.1 = x → nk ≤ e0.2.1 := by
        intro e0 he0 h0
        rw [nodup_key_unique hv.nodup he0 hmem (h0.trans hex.symm)]
        exact hnk
      have hsz : h.size ≠ 0 := by
        rw [hv.sizeEq]
        intro hz
        rw [List.length_eq_zero] at hz
        rw [hz] at hmem
        cases hmem
      by_cases hroot : hasTop x h.roots = true
      · -- the node is a root: key overwritten in place
        simp only [pq_decrease_key, hfe, if_neg hlt, hroot, if_true]
        refine decrease_valid_core hv hfe hnk ?_ ?_ ?_ rfl ?_ rfl rfl
        · show entriesF (setKeyTop x nk h.roots) ~ _
          rw [setKeyTop_entries hv.nodup hroot]
          exact List.Perm.refl _
        · exact setKeyTop_hOrd hv.hord hkx
        · intro r
          show countRank r (setKeyTop x nk h.roots) ≤ 2
          rw [countRank_setKeyTop]
          exact hv.rankBound r
        · show h.largest_rank = maxRankF (setKeyTop x nk h.roots)
          rw [maxRankF_setKeyTop]
          exact hv.largest
      · have hroot' : hasTop x h.roots = false := by simpa using hroot
        cases hpk : parentKeyF x h.roots with
        | none =>
          simp only [pq_decrease_key, hfe, if_neg hlt, hroot', Bool.false_eq_true,
            if_false, hpk]
          exact hv
        | some pk =>
          by_cases hcut : nk < pk
          · -- violating decrease: cut the subtree and promote it
            have hxin : x ∈ idsF h.roots := by
              rw [mem_idsF]
              exact ⟨e, hmem, hex⟩
            cases hrem : removeF true x h.roots with
            | none =>
              have := removeF_isSome true hxin
              rw [hrem] at this
              simp at this
            | some p =>
              obtain ⟨n, rest⟩ := p
              obtain ⟨⟨c, rkn, itn, kn, rfl⟩, hperm0⟩ := removeF_spec hrem
              have hmemn : (x, kn, itn) ∈ entriesH h := by
                refine hperm0.mem_iff.2 ?_
                simp [entriesF]
              have heqe : (x, kn, itn) = e :=
                nodup_key_unique hv.nodup hmemn hmem hex.symm
              have hkn : nk ≤ kn := by
                have : kn = e.2.1 := by rw [← heqe]
                rw [this]
                exact hnk
              have hset : setKeyTop x nk (VF.mk c .null rkn itn kn x) =
                  .mk c .null rkn itn nk x := by
                simp [setKeyTop]
              simp only [pq_decrease_key, hfe, if_neg hlt, hroot', Bool.false_eq_true,
                if_false, hpk, if_pos hcut, hrem, hset]
              have hL : entriesH h ~ (x, kn, itn) :: (entriesF c ++ entriesF rest) := by
                refine hperm0.trans ?_
                simp only [entriesF, List.cons_append, List.append_nil]
                exact List.Perm.refl _
              have hxL : x ∉ ((entriesF c ++ entriesF rest).map (·.1)) := by
                have hidp : idsF h.roots ~
                    x :: ((entriesF c ++ entriesF rest).map (·.1)) := by
                  have := hL.map (·.1)
                  simpa using this
                have := hidp.nodup_iff.1 hv.nodup
                rw [List.nodup_cons] at this
                exact this.1
              have hOrdn := removeF_hOrd hrem hv.hord
              have hOrdparts := hOrdF_mk.1 hOrdn.1
              refine decrease_valid_core hv hfe hnk ?_ ?_ ?_ rfl rfl rfl rfl
              · show entriesF (consolidate (pushRoot (VF.mk c .null rkn itn nk x) rest)) ~ _
                rw [consolidate]
                refine (consFuel_entries _ _).trans ?_
                rw [entriesF_pushRoot]
                have hmap : (entriesH h).map (substKey x nk) ~
                    (x, nk, itn) :: (entriesF c ++ entriesF rest) := by
                  refine (hL.map (substKey x nk)).trans ?_
                  rw [List.map_cons, map_substKey_of_not_mem hxL]
                  have hsub1 : substKey x nk (x, kn, itn) = (x, nk, itn) := by
                    rw [substKey, if_pos rfl]
                  rw [hsub1]
                exact hmap.symm
              · show hOrdF (consolidate (pushRoot (VF.mk c .null rkn itn nk x) rest)) = true
                rw [consolidate]
                apply consFuel_hOrd
                rw [show pushRoot (VF.mk c .null rkn itn nk x) rest =
                  .mk c rest rkn itn nk x from rfl, hOrdF_mk]
                exact ⟨allGE_mono hkn hOrdparts.1, hOrdparts.2.1, hOrdn.2⟩
              · intro r
                show countRank r (consolidate (pushRoot (VF.mk c .null rkn itn nk x) rest)) ≤ 2
                rw [consolidate]
                exact consFuel_bound le_rfl r
          · -- non-violating decrease on a non-root: key overwritten in place
            simp only [pq_decrease_key, hfe, if_neg hlt, hroot', Bool.false_eq_true,
              if_false, hpk, if_neg hcut]
            have hpknk : pk ≤ nk := le_of_not_lt hcut
            refine decrease_valid_core hv hfe hnk ?_ ?_ ?_ ?_ ?_ rfl rfl
            · show entriesF (setKeyF x nk h.roots) ~ _
              rw [setKeyF_entries]
              exact List.Perm.refl _
            · refine setKeyF_hOrd hv.hord hv.nodup ?_ hkx
              intro pk' hpk'
              rw [hpk] at hpk'
              injection hpk' with hh
              rw [← hh]
              exact hpknk
            · intro r
              show countRank r (setKeyF x nk h.roots) ≤ 2
              rw [countRank_setKeyF]
              exact hv.rankBound r
            · -- the stored minimum is already correct: its key is below the new key
              show h.minimum = updMin h x nk
              cases hm0 : h.minimum with
              | none => exact absurd (hv.minNone hm0) hsz
              | some m0 =>
                obtain ⟨hs0, em, hfem, hminp⟩ := hv.minSome m0 hm0
                obtain ⟨epk, hepk, hkpk⟩ := parentKeyF_mem hpk
                have hcmp : ¬(nk < em.2.1) := by
                  push_neg
                  calc em.2.1 ≤ epk.2.1 := hminp epk hepk
                    _ = pk := hkpk
                    _ ≤ nk := hpknk
                simp only [updMin, hm0, hfem, if_neg hcmp]
            · show h.largest_rank = maxRankF (setKeyF x nk h.roots)
              rw [maxRankF_setKeyF]
              exact hv.largest

/-! ## Validity across the whole API -/

theorem delete_valid {h : violation_heap} (hv : Valid h) (x : Nat) :
    Valid (pq_delete h x).2 := by
  by_cases hx : x ∈ idsF h.roots
  · obtain ⟨e, he, rfl⟩ := mem_idsF.1 hx
    exact (delete_spec hv he).2.1
  · cases hrem : removeF false x h.roots with
    | none =>
      simp only [pq_delete, hrem]
      exact hv
    | some p =>
      obtain ⟨n, rest⟩ := p
      obtain ⟨⟨c, rk, itn, kn, rfl⟩, hperm0⟩ := removeF_spec hrem
      exfalso
      refine hx (mem_idsF.2 ⟨(x, kn, itn), ?_, rfl⟩)
      refine hperm0.mem_iff.2 ?_
      simp [entriesF]

theorem deleteMin_valid {h : violation_heap} (hv : Valid h) :
    Valid (pq_delete_min h).2 := by
  by_cases hs : h.size = 0
  · rw [pq_delete_min, if_pos hs]
    exact hv
  · cases hm : h.minimum with
    | none =>
      rw [pq_delete_min, if_neg hs]
      simp only [hm]
      exact hv
    | some m =>
      rw [pq_delete_min, if_neg hs]
      simp only [hm]
      exact delete_valid hv m

theorem clearAux_valid (n : Nat) {h : violation_heap} (hv : Valid h) :
    Valid (clearAux n h) := by
  induction n generalizing h with
  | zero => exact hv
  | succ n ih =>
    rw [clearAux]
    exact ih (deleteMin_valid hv)

theorem step_valid {h : violation_heap} (hv : Valid h) (op : Op) :
    Valid (step h op) := by
  cases op with
  | insert k it => exact (insert_spec hv it k).1
  | deleteMin => exact deleteMin_valid hv
  | delete x => exact delete_valid hv x
  | decreaseKey x nk => exact decreaseKey_valid hv x nk
  | clear => exact clearAux_valid h.size hv

theorem runOps_valid (ops : List Op) : Valid (runOps ops) := by
  rw [runOps]
  have haux : ∀ (l : List Op) (h : violation_heap), Valid h → Valid (l.foldl step h) := by
    intro l
    induction l with
    | nil => exact fun h hv => hv
    | cons op l ih =>
      intro h hv
      rw [List.foldl_cons]
      exact ih _ (step_valid hv op)
  exact haux ops _ (create_valid 0)

/-! ## Populating and draining -/

theorem populate_aux (l : List (Int × Int)) :
    ∀ (h : violation_heap), Valid h →
    Valid (l.foldl (fun h p => (pq_insert h p.2 p.1).1) h) ∧
    entriesH (l.foldl (fun h p => (pq_insert h p.2 p.1).1) h) ~
      entriesH h ++ (l.enumFrom h.next_id).map (fun p => (p.1, p.2.1, p.2.2)) ∧
    (l.foldl (fun h p => (pq_insert h p.2 p.1).1) h).size = h.size + l.length := by
  induction l with
  | nil =>
    intro h hv
    refine ⟨hv, ?_, rfl⟩
    simp [List.enumFrom]
  | cons p l ih =>
    intro h hv
    obtain ⟨hv1, hperm1, hsz1, hnext1⟩ := insert_spec hv p.2 p.1
    rw [List.foldl_cons]
    obtain ⟨hv2, hperm2, hsz2⟩ := ih (pq_insert h p.2 p.1).1 hv1
    refine ⟨hv2, ?_, by rw [hsz2, hsz1, List.length_cons]; omega⟩
    refine hperm2.trans ?_
    rw [hnext1]
    have hstep : List.enumFrom h.next_id (p :: l) =
        (h.next_id, p) :: List.enumFrom (h.next_id + 1) l := rfl
    rw [hstep]
    refine (hperm1.append_right _).trans ?_
    rw [List.perm_iff_count]
    intro b
    simp only [List.count_append, List.count_cons, List.map_cons]
    omega

theorem populate_spec (l : List (Int × Int)) :
    Valid (populate l) ∧
    entriesH (populate l) ~ (l.enumFrom 0).map (fun p => (p.1, p.2.1, p.2.2)) ∧
    (populate l).size = l.length := by
  obtain ⟨hv, hperm, hsz⟩ := populate_aux l (pq_create l.length) (create_valid l.length)
  refine ⟨hv, ?_, ?_⟩
  · refine hperm.trans ?_
    have h1 : entriesH (pq_create l.length) = [] := rfl
    rw [h1, List.nil_append]
    exact List.Perm.refl _
  · rw [populate]
    rw [show (pq_create l.length).size = 0 from rfl] at hsz
    omega

theorem drain_spec (n : Nat) :
    ∀ (h : violation_heap), Valid h → h.size = n →
    List.Sorted (· ≤ ·) (drain n h).1 ∧
    (drain n h).1 ~ (entriesH h).map (·.2.1) ∧
    (drain n h).2.size = 0 := by
  induction n with
  | zero =>
    intro h hv hs
    rw [drain]
    have hent : entriesH h = [] := by
      rw [hv.sizeEq] at hs
      exact List.length_eq_zero.1 hs
    rw [hent]
    exact ⟨List.sorted_nil, by simp, hs⟩
  | succ n ih =>
    intro h hv hs
    have hsz : h.size ≠ 0 := by omega
    obtain ⟨e, hmem, hmin, hfm, hd1, hd2, hd3, hd4⟩ := deleteMin_spec hv hsz
    rcases hq : pq_delete_min h with ⟨res, h2⟩
    rw [hq] at hd1 hd2 hd3 hd4
    simp only at hd1 hd2 hd3 hd4
    subst hd1
    obtain ⟨ihs, ihp, ihz⟩ := ih h2 hd2 (by omega)
    have hred1 : (drain (n + 1) h).1 = e.2.1 :: (drain n h2).1 := by
      simp only [drain, hq]
    have hred2 : (drain (n + 1) h).2 = (drain n h2).2 := by
      simp only [drain, hq]
    refine ⟨?_, ?_, by rw [hred2]; exact ihz⟩
    · rw [hred1, List.sorted_cons]
      refine ⟨?_, ihs⟩
      intro b hb
      obtain ⟨e0, he0, rfl⟩ := List.mem_map.1 (ihp.mem_iff.1 hb)
      exact hmin e0 (hd3.mem_iff.1 (List.mem_cons_of_mem _ he0))
    · rw [hred1]
      refine (ihp.cons e.2.1).trans ?_
      have := hd3.map (·.2.1)
      simpa using this

theorem drainE_spec (n : Nat) :
    ∀ (h : violation_heap), Valid h → h.size = n → drainE n h ~ entriesH h := by
  induction n with
  | zero =>
    intro h hv hs
    rw [drainE]
    have hent : entriesH h = [] := by
      rw [hv.sizeEq] at hs
      exact List.length_eq_zero.1 hs
    rw [hent]
  | succ n ih =>
    intro h hv hs
    have hsz : h.size ≠ 0 := by omega
    obtain ⟨e, hmem, hmin, hfm, hd1, hd2, hd3, hd4⟩ := deleteMin_spec hv hsz
    have hred : drainE (n + 1) h = e :: drainE n (pq_delete_min h).2 := by
      simp only [drainE, hfm]
    rw [hred]
    exact ((ih _ hd2 (by omega)).cons e).trans hd3

theorem enum_keys (l : List (Int × Int)) :
    ∀ n, (((l.enumFrom n).map (fun p => (p.1, p.2.1, p.2.2))).map (·.2.1)) = l.map (·.1) := by
  induction l with
  | nil => intro n; rfl
  | cons p l ih =>
    intro n
    have hstep : List.enumFrom n (p :: l) = (n, p) :: List.enumFrom (n + 1) l := rfl
    rw [hstep, List.map_cons, List.map_cons, ih (n + 1), List.map_cons]

/-! ## The claims -/

/-- C1: for every heap populated by inserting a finite set of (key, item)
pairs, repeatedly calling delete-min until the heap is empty yields the keys
in non-decreasing order (and exactly the inserted keys), and after the last
call the heap's size is 0. -/
theorem C1_delete_min_drains_sorted (l : List (Int × Int)) :
    List.Sorted (· ≤ ·) (drain (populate l).size (populate l)).1 ∧
    (drain (populate l).size (populate l)).1 ~ l.map (·.1) ∧
    (drain (populate l).size (populate l)).2.size = 0 := by
  obtain ⟨hv, hperm, hsz⟩ := populate_spec l
  obtain ⟨hs, hp, hz⟩ := drain_spec (populate l).size (populate l) hv rfl
  refine ⟨hs, ?_, hz⟩
  refine hp.trans ?_
  refine (hperm.map (·.2.1)).trans ?_
  rw [enum_keys]

/-- C2: after every sequence of insert, delete, delete-min, decrease-key (and
clear) operations that leaves the heap non-empty, find-min returns a node
whose key is the minimum over all items inserted and not yet deleted (i.e.
over all entries stored in the heap). -/
theorem C2_find_min_global (ops : List Op) (hs : (runOps ops).size ≠ 0) :
    ∃ e, pq_find_min (runOps ops) = .ok e ∧ e ∈ entriesH (runOps ops) ∧
      ∀ e' ∈ entriesH (runOps ops), e.2.1 ≤ e'.2.1 := by
  obtain ⟨m, e, hm, hfe, hfm, hmem, hmin⟩ := find_min_ok (runOps_valid ops) hs
  exact ⟨e, hfm, hmem, hmin⟩

theorem C2_find_min_global_witness :
    (runOps [.insert 3 7]).size ≠ 0 ∧
    ∃ e, pq_find_min (runOps [.insert 3 7]) = .ok e ∧
      e ∈ entriesH (runOps [.insert 3 7]) ∧
      ∀ e' ∈ entriesH (runOps [.insert 3 7]), e.2.1 ≤ e'.2.1 :=
  ⟨by decide, C2_find_min_global [.insert 3 7] (by decide)⟩

/-- C3: after every completed mutating operation (insert, delete-min, delete,
decrease-key, clear — i.e. in every heap reachable by a sequence of API
operations), at most two roots of the forest share any given rank. -/
theorem C3_rank_bound (ops : List Op) (r : Nat) :
    countRank r (runOps ops).roots ≤ 2 :=
  (runOps_valid ops).rankBound r

/-- C4: find-min and delete-min fail, with an empty-heap error, exactly when
the heap's size is 0; a failing delete-min leaves the heap unchanged (find-min
never mutates the heap at all in this model). -/
theorem C4_empty_heap_errors (h : violation_heap) (hv : valid h = true) :
    (∀ er, pq_find_min h = .error er ↔ (h.size = 0 ∧ er = .emptyHeap)) ∧
    (∀ er, (pq_delete_min h).1 = .error er ↔ (h.size = 0 ∧ er = .emptyHeap)) ∧
    (h.size = 0 → (pq_delete_min h).2 = h) := by
  have hv' := valid_iff.1 hv
  by_cases hs : h.size = 0
  · refine ⟨?_, ?_, fun _ => by rw [pq_delete_min, if_pos hs]⟩
    · intro er
      rw [pq_find_min, if_pos hs]
      simp [hs, eq_comm]
    · intro er
      rw [pq_delete_min, if_pos hs]
      simp [hs, eq_comm]
  · obtain ⟨m, e, hm, hfe, hfm, hmem, hmin⟩ := find_min_ok hv' hs
    obtain ⟨e', hmem', hmin', hfm', hd1, _⟩ := deleteMin_spec hv' hs
    refine ⟨?_, ?_, fun h0 => absurd h0 hs⟩
    · intro er
      rw [hfm]
      simp [hs]
    · intro er
      rw [hd1]
      simp [hs]

theorem C4_empty_heap_errors_witness :
    valid (populate [(1, 2)]) = true ∧
    ((∀ er, pq_find_min (populate [(1, 2)]) = .error er ↔
        ((populate [(1, 2)]).size = 0 ∧ er = .emptyHeap)) ∧
     (∀ er, (pq_delete_min (populate [(1, 2)])).1 = .error er ↔
        ((populate [(1, 2)]).size = 0 ∧ er = .emptyHeap)) ∧
     ((populate [(1, 2)]).size = 0 → (pq_delete_min (populate [(1, 2)])).2 = populate [(1, 2)])) :=
  ⟨by decide, C4_empty_heap_errors (populate [(1, 2)]) (by decide)⟩

/-- C5: decrease-key called on a node in the heap with a new key strictly
greater than the node's current key reports an order violation and leaves the
heap completely unmutated. -/
theorem C5_order_violation (h : violation_heap) (e : Nat × Int × Int)
    (nk : Int) (hv : valid h = true) (he : e ∈ entriesH h) (hk : e.2.1 < nk) :
    pq_decrease_key h e.1 nk = (.error .orderViolation, h) := by
  have hv' := valid_iff.1 hv
  have hfe : findEntry h e.1 = some e := findEntry_of_mem hv'.nodup he
  simp only [pq_decrease_key, hfe, if_pos hk]

theorem C5_order_violation_witness :
    valid (populate [(1, 2)]) = true ∧ (0, 1, 2) ∈ entriesH (populate [(1, 2)]) ∧
    ((1 : Int) < 5) ∧
    pq_decrease_key (populate [(1, 2)]) (0, (1 : Int), (2 : Int)).1 5 =
      (.error .orderViolation, populate [(1, 2)]) :=
  ⟨by decide, by decide, by decide,
    C5_order_violation (populate [(1, 2)]) (0, 1, 2) 5 (by decide) (by decide) (by decide)⟩

/-- C6: decrease-key on a root with a valid new key only overwrites that
node's key (entries change by exactly that one key substitution and the
skeleton — links, ranks, ids — is unchanged) and updates the minimum pointer
exactly when the new key is strictly smaller than the minimum's key; size,
largest rank and the allocation counter are untouched. -/
theorem C6_decrease_root_frame (h : violation_heap) (x : Nat) (nk : Int)
    (e em : Nat × Int × Int) (m : Nat) (hv : valid h = true)
    (hroot : hasTop x h.roots = true) (hfe : findEntry h x = some e)
    (hk : nk ≤ e.2.1) (hm : h.minimum = some m) (hem : findEntry h m = some em) :
    pq_decrease_key h x nk =
      (.ok (), { h with roots := setKeyTop x nk h.roots,
                        minimum := if nk < em.2.1 then some x else some m }) ∧
    skel (setKeyTop x nk h.roots) = skel h.roots ∧
    entriesF (setKeyTop x nk h.roots) = (entriesH h).map (substKey x nk) := by
  have hv' := valid_iff.1 hv
  refine ⟨?_, skel_setKeyTop x nk h.roots, setKeyTop_entries hv'.nodup hroot⟩
  simp only [pq_decrease_key, hfe, if_neg (not_lt.2 hk), hroot, if_true, updMin, hm, hem]

theorem C6_decrease_root_frame_witness :
    valid (populate [(5, 0), (3, 1)]) = true ∧
    hasTop 0 (populate [(5, 0), (3, 1)]).roots = true ∧
    findEntry (populate [(5, 0), (3, 1)]) 0 = some (0, 5, 0) ∧
    ((4 : Int) ≤ 5) ∧
    (populate [(5, 0), (3, 1)]).minimum = some 1 ∧
    findEntry (populate [(5, 0), (3, 1)]) 1 = some (1, 3, 1) ∧
    (pq_decrease_key (populate [(5, 0), (3, 1)]) 0 4 =
      (.ok (), { populate [(5, 0), (3, 1)] with
                   roots := setKeyTop 0 4 (populate [(5, 0), (3, 1)]).roots,
                   minimum := if (4 : Int) < (1, 3, 1).2.1 then some 0 else some 1 }) ∧
     skel (setKeyTop 0 4 (populate [(5, 0), (3, 1)]).roots) =
       skel (populate [(5, 0), (3, 1)]).roots ∧
     entriesF (setKeyTop 0 4 (populate [(5, 0), (3, 1)]).roots) =
       (entriesH (populate [(5, 0), (3, 1)])).map (substKey 0 4)) :=
  ⟨by decide, by decide, by decide, by decide, by decide, by decide,
    C6_decrease_root_frame (populate [(5, 0), (3, 1)]) 0 4 (0, 5, 0) (1, 3, 1) 1
      (by decide) (by decide) (by decide) (by decide) (by decide) (by decide)⟩

/-- C7: deleting a node other than the current minimum removes exactly that
node: the returned key is the deleted node's key, the size decreases by one,
and every other entry remains with id, key and item unchanged (the old entry
list is a permutation of the deleted entry consed onto the new one). -/
theorem C7_delete_non_min (h : violation_heap) (e : Nat × Int × Int)
    (hv : valid h = true) (he : e ∈ entriesH h) (_hne : h.minimum ≠ some e.1) :
    (pq_delete h e.1).1 = .ok e.2.1 ∧
    (pq_delete h e.1).2.size = h.size - 1 ∧
    e :: entriesH (pq_delete h e.1).2 ~ entriesH h := by
  obtain ⟨h1, h2, h3, h4, _⟩ := delete_spec (valid_iff.1 hv) he
  exact ⟨h1, h4, h3⟩

theorem C7_delete_non_min_witness :
    valid (populate [(5, 0), (3, 1)]) = true ∧
    (0, 5, 0) ∈ entriesH (populate [(5, 0), (3, 1)]) ∧
    (populate [(5, 0), (3, 1)]).minimum ≠ some 0 ∧
    ((pq_delete (populate [(5, 0), (3, 1)]) (0, (5 : Int), (0 : Int)).1).1 = .ok 5 ∧
     (pq_delete (populate [(5, 0), (3, 1)]) (0, (5 : Int), (0 : Int)).1).2.size =
       (populate [(5, 0), (3, 1)]).size - 1 ∧
     (0, (5 : Int), (0 : Int)) ::
       entriesH (pq_delete (populate [(5, 0), (3, 1)]) (0, (5 : Int), (0 : Int)).1).2 ~
       entriesH (populate [(5, 0), (3, 1)])) :=
  ⟨by decide, by decide, by decide,
    C7_delete_non_min (populate [(5, 0), (3, 1)]) (0, 5, 0) (by decide) (by decide) (by decide)⟩

/-- C8: inserting N (key, item) pairs into a fresh heap and then performing N
delete-min operations returns exactly the N originally inserted items, by
identity (the handles 0..N-1 with their keys and items), each exactly once. -/
theorem C8_round_trip (l : List (Int × Int)) :
    drainE (populate l).size (populate l) ~
      (l.enumFrom 0).map (fun p => (p.1, p.2.1, p.2.2)) ∧
    (populate l).size = l.length := by
  obtain ⟨hv, hperm, hsz⟩ := populate_spec l
  exact ⟨(drainE_spec _ _ hv rfl).trans hperm, hsz⟩

/-- C9: on a non-empty heap, delete applied to the node the minimum pointer
designates returns the same result and the same heap as delete-min. -/
theorem C9_delete_min_refines (h : violation_heap) (hv : valid h = true)
    (hs : h.size ≠ 0) :
    ∃ m, h.minimum = some m ∧ pq_delete h m = pq_delete_min h := by
  have hv' := valid_iff.1 hv
  cases hm : h.minimum with
  | none => exact absurd (hv'.minNone hm) hs
  | some m =>
    refine ⟨m, rfl, ?_⟩
    rw [pq_delete_min, if_neg hs]
    simp [hm]

theorem C9_delete_min_refines_witness :
    valid (populate [(5, 0), (3, 1)]) = true ∧ (populate [(5, 0), (3, 1)]).size ≠ 0 ∧
    ∃ m, (populate [(5, 0), (3, 1)]).minimum = some m ∧
      pq_delete (populate [(5, 0), (3, 1)]) m = pq_delete_min (populate [(5, 0), (3, 1)]) :=
  ⟨by decide, by decide,
    C9_delete_min_refines (populate [(5, 0), (3, 1)]) (by decide) (by decide)⟩

/-- C10 counterexample: the claim "between operations, every node's rank
equals its number of children" fails on the code: after inserting keys 1, 2, 3
(which links the key-3 node under the key-2 node) and deleting the key-3
child, its parent keeps rank 1 with no children. -/
theorem C10_rank_children_counterexample :
    ranksOk (runOps [.insert 1 0, .insert 2 0, .insert 3 0, .delete 2]).roots = false := by
  decide

/-- C10 amended: on heaps built by insertions alone every node's rank equals
its number of children; delete, decrease-key (and delete-min of a non-root
minimum after key ties) may leave a parent's rank differing from its child
count, since detaching a child does not always adjust the parent's rank. -/
theorem C10_rank_children_insert_only (l : List (Int × Int)) :
    ranksOk (populate l).roots = true := by
  rw [populate]
  have haux : ∀ (l' : List (Int × Int)) (h : violation_heap), ranksOk h.roots = true →
      ranksOk (l'.foldl (fun h p => (pq_insert h p.2 p.1).1) h).roots = true := by
    intro l'
    induction l' with
    | nil => exact fun h hr => hr
    | cons p l' ih =>
      intro h hr
      rw [List.foldl_cons]
      refine ih _ ?_
      show ranksOk (consolidate (pushRoot (.mk .null .null 0 p.2 p.1 h.next_id) h.roots)) = true
      rw [consolidate]
      apply consFuel_ranksOk
      rw [show pushRoot (VF.mk .null .null 0 p.2 p.1 h.next_id) h.roots =
        .mk .null h.roots 0 p.2 p.1 h.next_id from rfl, ranksOk_mk]
      exact ⟨rfl, rfl, hr⟩
  exact haux l _ rfl

end VH


